import Mathlib

/-!
Verification of the `odata_v4_query` repository against its specification.

The repository source under `src/` contains the query-options parser
(`query_parser.py`).  The filter tokenizer and filter parser
(`filter_tokenizer.py` / `filter_parser.py`) and the error classes
(`errors.py`) are part of the package (they are imported by
`__init__.py` and `query_parser.py`) but their source files are not
available; they are modelled here from the specification (sections 3, 4
and 7 of `spec.md`).
-/

namespace ODataQuery

/-! ## Filter language: data model (modelled from the spec) -/

/-- Modelled from the spec: comparison operators of `filter_parser.py`
(missing from `src/`), spec section 3: `{eq, ne, gt, ge, lt, le}`. -/
inductive CmpOp
  | eq | ne | gt | ge | lt | le
deriving DecidableEq

/-- Modelled from the spec: logical operators of `filter_parser.py`
(missing from `src/`), spec section 3: `{and, or}`. -/
inductive LogOp
  | and | or
deriving DecidableEq

/-- Modelled from the spec: supported function names of `filter_parser.py`
(missing from `src/`), spec section 3: `{contains, startswith, endswith}`. -/
inductive FuncName
  | contains | startswith | endswith
deriving DecidableEq

/-- Modelled from the spec: literal values of `filter_parser.py`
(missing from `src/`), spec section 3: `String(text)`, `Number(decimal)`
(represented by its decimal literal text), `Boolean(bool)`, `Null`. -/
inductive FLit
  | str (s : String)
  | num (s : String)
  | bool (b : Bool)
  | null
deriving DecidableEq

/-- Modelled from the spec: the `FilterNode` tagged union of
`filter_parser.py` (missing from `src/`), spec section 3. -/
inductive FilterNode
  | comparison (fieldPath : List String) (op : CmpOp) (value : FLit)
  | logical (op : LogOp) (left right : FilterNode)
  | unary (operand : FilterNode)
  | functionCall (name : FuncName) (fieldPath : List String) (arg : FLit)
deriving DecidableEq

/-- Modelled from the spec: the two error kinds of `errors.py` used by the
filter core (missing from `src/`), spec section 7: `LexError` and
`SyntaxError` (messages and positions are omitted; only the kind is kept). -/
inductive FilterError
  | lexErr
  | synErr
deriving DecidableEq

/-- Modelled from the spec: the token alphabet of `filter_tokenizer.py`
(missing from `src/`), spec section 3. -/
inductive Token
  | ident (s : String)
  | strLit (s : String)
  | numLit (s : String)
  | boolLit (b : Bool)
  | nullLit
  | cmp (op : CmpOp)
  | andK | orK | notK
  | func (f : FuncName)
  | lparen | rparen | comma
deriving DecidableEq

/-! ## Filter tokenizer (modelled from the spec, section 4.1) -/

/-- The single-quote character (written by code point to keep the
development uniform). -/
def quoteChar : Char := Char.ofNat 39

/-- Modelled from the spec: identifier characters, spec section 4.1:
"sequences of letters, digits, underscore, and `/`". -/
def isIdentChar (c : Char) : Bool :=
  c.isAlpha || c.isDigit || c = '_' || c = '/'

/-- Keywords (boolean/null literals, logical and comparison operators,
function names), all matched case-insensitively per spec section 4.1. -/
def kwStrings : List String :=
  ["true", "false", "null", "and", "or", "not",
   "eq", "ne", "gt", "ge", "lt", "le",
   "contains", "startswith", "endswith"]

/-- Modelled from the spec: classification of a maximal identifier run,
spec section 4.1 (keywords are matched case-insensitively and take
priority over identifier matching). -/
def keywordToken (run : List Char) : Token :=
  let l : String := ⟨run.map Char.toLower⟩
  if l = "true" then .boolLit true
  else if l = "false" then .boolLit false
  else if l = "null" then .nullLit
  else if l = "and" then .andK
  else if l = "or" then .orK
  else if l = "not" then .notK
  else if l = "eq" then .cmp .eq
  else if l = "ne" then .cmp .ne
  else if l = "gt" then .cmp .gt
  else if l = "ge" then .cmp .ge
  else if l = "lt" then .cmp .lt
  else if l = "le" then .cmp .le
  else if l = "contains" then .func .contains
  else if l = "startswith" then .func .startswith
  else if l = "endswith" then .func .endswith
  else .ident ⟨run⟩

/-- Modelled from the spec: lexing the body of a single-quoted string
literal, spec section 4.1: a doubled single quote is an escaped single
quote; no closing quote before end of input is a lex error.  The opening
quote has already been consumed; returns the unescaped content and the
remaining input. -/
def lexString : List Char → List Char → Except FilterError (String × List Char)
  | _, [] => .error .lexErr
  | acc, c :: rest =>
    if c = quoteChar then
      match rest with
      | c2 :: rest2 =>
        if c2 = quoteChar then lexString (acc ++ [quoteChar]) rest2
        else .ok (⟨acc⟩, c2 :: rest2)
      | [] => .ok (⟨acc⟩, [])
    else lexString (acc ++ [c]) rest

/-- Longest run of decimal digits and the remaining input. -/
def takeDigits : List Char → List Char × List Char
  | [] => ([], [])
  | c :: cs =>
    if c.isDigit then
      let p := takeDigits cs
      (c :: p.1, p.2)
    else ([], c :: cs)

/-- Longest run of identifier characters and the remaining input. -/
def takeIdent : List Char → List Char × List Char
  | [] => ([], [])
  | c :: cs =>
    if isIdentChar c then
      let p := takeIdent cs
      (c :: p.1, p.2)
    else ([], c :: cs)

/-- Modelled from the spec: numeric literal lexing, spec section 4.1:
optional leading `-` (already consumed when `sign` is true), digits,
optional `.` with trailing digits; a malformed sequence is a lex error.
Returns the literal text and the remaining input. -/
def lexNumber (sign : Bool) (cs : List Char) : Except FilterError (String × List Char) :=
  let p := takeDigits cs
  if p.1 = [] then .error .lexErr
  else
    match p.2 with
    | '.' :: r2 =>
      let q := takeDigits r2
      if q.1 = [] then .error .lexErr
      else .ok (⟨(if sign then ['-'] else []) ++ p.1 ++ '.' :: q.1⟩, q.2)
    | r => .ok (⟨(if sign then ['-'] else []) ++ p.1⟩, r)

/-- Prepend a token to a tokenizer result. -/
def consTok (t : Token) : Except FilterError (List Token) → Except FilterError (List Token)
  | .error e => .error e
  | .ok ts => .ok (t :: ts)

/-- Modelled from the spec: the tokenizer main loop of
`filter_tokenizer.py` (missing from `src/`), spec section 4.1, as a
fuel-indexed structural recursion (each step consumes at least one
character, so fuel `length + 1` always suffices). -/
def tokFuel : Nat → List Char → Except FilterError (List Token)
  | 0, _ => .error .lexErr
  | _ + 1, [] => .ok []
  | f + 1, c :: cs =>
    if c.isWhitespace then tokFuel f cs
    else if c = quoteChar then
      match lexString [] cs with
      | .error e => .error e
      | .ok (s, r) => consTok (.strLit s) (tokFuel f r)
    else if c = '(' then consTok .lparen (tokFuel f cs)
    else if c = ')' then consTok .rparen (tokFuel f cs)
    else if c = ',' then consTok .comma (tokFuel f cs)
    else if c.isDigit then
      match lexNumber false (c :: cs) with
      | .error e => .error e
      | .ok (s, r) => consTok (.numLit s) (tokFuel f r)
    else if c = '-' then
      match lexNumber true cs with
      | .error e => .error e
      | .ok (s, r) => consTok (.numLit s) (tokFuel f r)
    else if isIdentChar c then
      let p := takeIdent (c :: cs)
      consTok (keywordToken p.1) (tokFuel f p.2)
    else .error .lexErr

/-- Modelled from the spec: `tokenize` of `filter_tokenizer.py` (missing
from `src/`), spec section 4.1. -/
def tokenizeChars (cs : List Char) : Except FilterError (List Token) :=
  tokFuel (cs.length + 1) cs

/-! ## Filter parser (modelled from the spec, section 4.2) -/

/-- Split a character list at every occurrence of `sep`; always returns a
nonempty list of (possibly empty) groups. -/
def splitOnChar (sep : Char) : List Char → List (List Char)
  | [] => [[]]
  | c :: rest =>
    match splitOnChar sep rest with
    | [] => [[]]
    | g :: gs => if c = sep then [] :: g :: gs else (c :: g) :: gs

/-- Join character lists with the separator `sep` (inverse of
`splitOnChar`). -/
def joinWith (sep : Char) : List (List Char) → List Char
  | [] => []
  | [x] => x
  | x :: y :: rest => x ++ sep :: joinWith sep (y :: rest)

/-- Modelled from the spec: `field_path := identifier ("/" identifier)*`,
spec section 4.2.  The tokenizer delivers the whole navigation path as one
identifier token; the parser splits it at `/`, rejecting empty segments. -/
def fieldPathOf (s : String) : Option (List String) :=
  let segs := splitOnChar '/' s.data
  if segs.all (fun seg => !seg.isEmpty) then some (segs.map fun seg => ⟨seg⟩)
  else none

/-- The literal denoted by a token, if any (spec section 4.2:
`literal := string | number | boolean | null`). -/
def litOfToken : Token → Option FLit
  | .strLit s => some (.str s)
  | .numLit s => some (.num s)
  | .boolLit b => some (.bool b)
  | .nullLit => some .null
  | _ => none

/-- The grammar position of a single recursive-descent parser invocation:
the `or`/`and` levels with their left-fold loops, the `not` level and the
primary level (spec section 4.2). -/
inductive ParseCall
  | orC (toks : List Token)
  | orLoopC (acc : FilterNode) (toks : List Token)
  | andC (toks : List Token)
  | andLoopC (acc : FilterNode) (toks : List Token)
  | unaryC (toks : List Token)
  | primC (toks : List Token)

/-- Modelled from the spec: the recursive-descent filter parser of
`filter_parser.py` (missing from `src/`), implementing the grammar of
spec section 4.2 as a fuel-indexed structural recursion over
`ParseCall` positions.  `or` and `and` are parsed by left-folding loops
(left associativity), `not` binds tighter than `and`, parentheses reset
precedence, and every violation is a `SyntaxError`. -/
def parseStep : Nat → ParseCall → Except FilterError (FilterNode × List Token)
  | 0, _ => .error .synErr
  | f + 1, c =>
    match c with
    | .orC toks =>
      match parseStep f (.andC toks) with
      | .error e => .error e
      | .ok (a, rest) => parseStep f (.orLoopC a rest)
    | .orLoopC acc toks =>
      match toks with
      | [] => .ok (acc, [])
      | tk :: rest =>
        if tk = .orK then
          match parseStep f (.andC rest) with
          | .error e => .error e
          | .ok (b, r2) => parseStep f (.orLoopC (.logical .or acc b) r2)
        else .ok (acc, tk :: rest)
    | .andC toks =>
      match parseStep f (.unaryC toks) with
      | .error e => .error e
      | .ok (a, rest) => parseStep f (.andLoopC a rest)
    | .andLoopC acc toks =>
      match toks with
      | [] => .ok (acc, [])
      | tk :: rest =>
        if tk = .andK then
          match parseStep f (.unaryC rest) with
          | .error e => .error e
          | .ok (b, r2) => parseStep f (.andLoopC (.logical .and acc b) r2)
        else .ok (acc, tk :: rest)
    | .unaryC toks =>
      match toks with
      | [] => parseStep f (.primC [])
      | tk :: rest =>
        if tk = .notK then
          match parseStep f (.unaryC rest) with
          | .error e => .error e
          | .ok (x, r) => .ok (.unary x, r)
        else parseStep f (.primC (tk :: rest))
    | .primC toks =>
      match toks with
      | .lparen :: rest =>
        match parseStep f (.orC rest) with
        | .error e => .error e
        | .ok (x, r) =>
          match r with
          | .rparen :: r2 => .ok (x, r2)
          | _ => .error .synErr
      | .ident s :: rest =>
        match fieldPathOf s with
        | none => .error .synErr
        | some p =>
          match rest with
          | .cmp op :: ltok :: r2 =>
            match litOfToken ltok with
            | some v => .ok (.comparison p op v, r2)
            | none => .error .synErr
          | _ => .error .synErr
      | .func fn :: .lparen :: .ident s :: .comma :: ltok :: .rparen :: r2 =>
        match fieldPathOf s, litOfToken ltok with
        | some p, some v => .ok (.functionCall fn p v, r2)
        | _, _ => .error .synErr
      | _ => .error .synErr

/-- Fuel used to run the parser on a token list: generous enough that the
recursion (whose depth is bounded by the spec section 5 observation that
each token is consumed once, with constant grammar-level descent) never
exhausts it. -/
def parseFuel (toks : List Token) : Nat := 4 * toks.length + 8

/-- Modelled from the spec: `parse(tokens)` of `filter_parser.py`
(missing from `src/`), spec section 4.2: parses a whole expression and
rejects trailing unconsumed tokens with a `SyntaxError`. -/
def parseTokens (toks : List Token) : Except FilterError FilterNode :=
  match parseStep (parseFuel toks) (.orC toks) with
  | .error e => .error e
  | .ok (t, []) => .ok t
  | .ok (_, _ :: _) => .error .synErr

/-- Modelled from the spec: `ODataFilterParser.parse(value)` (missing
from `src/`), spec sections 2 and 6: raw string, through the tokenizer,
through the filter parser, to a single root `FilterNode` or a typed
error. -/
def filterParse (s : String) : Except FilterError FilterNode :=
  match tokenizeChars s.data with
  | .error e => .error e
  | .ok ts => parseTokens ts

/-! ## Pretty printer (in-order reconstruction, spec section 8) -/

/-- The token carrying a literal. -/
def litToken : FLit → Token
  | .str s => .strLit s
  | .num s => .numLit s
  | .bool b => .boolLit b
  | .null => .nullLit

/-- Join the segments of a field path back into the `/`-separated
identifier lexeme. -/
def joinPath (p : List String) : String := ⟨joinWith '/' (p.map String.data)⟩

/-- Composite nodes are parenthesized when they occur as children, so
that the reconstruction is unambiguous (parentheses only affect parse
order, spec section 3). -/
def needParens : FilterNode → Bool
  | .logical _ _ _ => true
  | .unary _ => true
  | _ => false

/-- In-order reconstruction of a tree as a token sequence. -/
def ppToks : FilterNode → List Token
  | .comparison p op v => [.ident (joinPath p), .cmp op, litToken v]
  | .logical op l r =>
    (if needParens l then .lparen :: ppToks l ++ [.rparen] else ppToks l)
      ++ (match op with | .and => Token.andK | .or => Token.orK)
      :: (if needParens r then .lparen :: ppToks r ++ [.rparen] else ppToks r)
  | .unary x => .notK :: (if needParens x then .lparen :: ppToks x ++ [.rparen] else ppToks x)
  | .functionCall fn p v => [.func fn, .lparen, .ident (joinPath p), .comma, litToken v, .rparen]

/-- A node as it is printed in child position: parenthesized when
composite. -/
def ppAtomToks (t : FilterNode) : List Token :=
  if needParens t then .lparen :: ppToks t ++ [.rparen] else ppToks t

/-- Escape a string-literal body by doubling every single quote (spec
section 4.1). -/
def escQuotes : List Char → List Char
  | [] => []
  | c :: cs =>
    if c = quoteChar then quoteChar :: quoteChar :: escQuotes cs
    else c :: escQuotes cs

/-- The source lexeme of a token (keywords printed in lowercase). -/
def tokenLexeme : Token → List Char
  | .ident s => s.data
  | .strLit s => quoteChar :: escQuotes s.data ++ [quoteChar]
  | .numLit s => s.data
  | .boolLit true => "true".data
  | .boolLit false => "false".data
  | .nullLit => "null".data
  | .cmp .eq => "eq".data
  | .cmp .ne => "ne".data
  | .cmp .gt => "gt".data
  | .cmp .ge => "ge".data
  | .cmp .lt => "lt".data
  | .cmp .le => "le".data
  | .andK => "and".data
  | .orK => "or".data
  | .notK => "not".data
  | .func .contains => "contains".data
  | .func .startswith => "startswith".data
  | .func .endswith => "endswith".data
  | .lparen => ['(']
  | .rparen => [')']
  | .comma => [',']

/-- Pretty-printed character sequence of a tree: the lexemes of its
in-order token reconstruction, separated by single spaces. -/
def ppChars (t : FilterNode) : List Char :=
  joinWith ' ' ((ppToks t).map tokenLexeme)

/-- Pretty-printed form of a tree. -/
def pretty (t : FilterNode) : String := ⟨ppChars t⟩

/-! ## Well-formedness invariants of parser output -/

/-- An identifier lexeme as the tokenizer can produce it: nonempty, made
of identifier characters, not starting with a digit, and not matching any
keyword case-insensitively (spec section 4.1). -/
def identWF : List Char → Bool
  | [] => false
  | c :: cs =>
    !c.isDigit && (c :: cs).all isIdentChar
      && !kwStrings.contains ⟨(c :: cs).map Char.toLower⟩

/-- The digits-dot-digits core of a numeric literal. -/
def numCore (cs : List Char) : Bool :=
  let p := takeDigits cs
  decide (p.1 ≠ []) &&
    (match p.2 with
     | [] => true
     | c :: r2 =>
       if c = '.' then
         let q := takeDigits r2
         decide (q.1 ≠ []) && decide (q.2 = [])
       else false)

/-- A numeric literal lexeme as the tokenizer can produce it: optional
leading `-`, digits, optional `.` with trailing digits (spec
section 4.1). -/
def numWF : List Char → Bool
  | [] => false
  | c :: r => if c = '-' then numCore r else numCore (c :: r)

/-- A field path as the parser can produce it: nonempty segments without
`/`, whose `/`-joined form is a well-formed identifier lexeme. -/
def pathWF (p : List String) : Bool :=
  !p.isEmpty && p.all (fun s => !s.data.isEmpty && s.data.all (fun c => c ≠ '/'))
    && identWF (joinPath p).data

/-- Well-formedness of a literal (only numbers carry a lexical shape). -/
def litWF : FLit → Bool
  | .num s => numWF s.data
  | _ => true

/-- Well-formedness of a tree: every field path and literal in it could
have come out of the tokenizer. -/
def wfNode : FilterNode → Bool
  | .comparison p _ v => pathWF p && litWF v
  | .logical _ l r => wfNode l && wfNode r
  | .unary x => wfNode x
  | .functionCall _ p v => pathWF p && litWF v

/-- Well-formedness of a token (identifier and number payloads have the
lexical shape the tokenizer guarantees). -/
def tokWF : Token → Bool
  | .ident s => identWF s.data
  | .numLit s => numWF s.data
  | _ => true

/-! ## Query options parser (`src/odata_v4_query/query_parser.py`) -/

/-- One entry of an `$orderby` result: the dict
`{'field': ..., 'direction': ...}` built by `_parse_orderby`
(query_parser.py line 190), with exactly those two keys. -/
structure OrderbyItem where
  field : String
  direction : String
deriving DecidableEq

/-- `ODataQueryOptions` (query_parser.py lines 9-19) with its field
defaults. -/
structure ODataQueryOptions where
  count : Bool := false
  expand : Option (List String) := none
  filter_ : Option FilterNode := none
  format_ : Option String := none
  orderby : Option (List OrderbyItem) := none
  search : Option String := none
  select : Option (List String) := none
  skip : Option Int := none
  top : Option Int := none
deriving DecidableEq

/-- The default `ODataQueryOptions()` record. -/
def defaultOptions : ODataQueryOptions := {}

/-- The exceptions `query_parser.py` can raise: errors propagated from
the filter parser, and the two classes of `errors.py` (modelled from the
spec since `errors.py` is missing from `src/`; only constructor arguments
are kept). -/
inductive QueryError
  | filterError (e : FilterError)
  | noPositiveIntegerValue (param value : String)
  | unsupportedFormat (value : String)
deriving DecidableEq

/-! ### Python string/number primitives used by `query_parser.py` -/

/-- Python `str.strip()` on a character list (whitespace from both
ends). -/
def trimChars (cs : List Char) : List Char :=
  ((cs.dropWhile Char.isWhitespace).reverse.dropWhile Char.isWhitespace).reverse

/-- Python `str.strip()`. -/
def pyStrip (s : String) : String := ⟨trimChars s.data⟩

/-- Python `str.lower()` (character-wise). -/
def pyLower (s : String) : String := ⟨s.data.map Char.toLower⟩

/-- Python `str.split(sep)` for a one-character separator (keeps empty
pieces). -/
def pySplit (s : String) (sep : Char) : List String :=
  (splitOnChar sep s.data).map fun g => ⟨g⟩

/-- Python `str.endswith(suffix)`. -/
def pyEndsWith (s suf : String) : Bool := suf.data.isSuffixOf s.data

/-- Worker for Python `str.replace(old, new)`: scans left to right,
replacing non-overlapping occurrences; `skip` counts characters of a
matched occurrence still to be dropped. -/
def replaceGo (old new : List Char) : List Char → Nat → List Char
  | [], _ => []
  | _ :: cs, skip + 1 => replaceGo old new cs skip
  | c :: cs, 0 =>
    if old.isPrefixOf (c :: cs) ∧ old ≠ [] then
      new ++ replaceGo old new cs (old.length - 1)
    else c :: replaceGo old new cs 0

/-- Python `str.replace(old, new)` (for nonempty `old`, as used here). -/
def pyReplace (s old new : String) : String :=
  ⟨replaceGo old.data new.data s.data 0⟩

/-- Digits of a Python integer literal after the first digit: underscores
are allowed singly, between digits. -/
def digitsCore : Nat → List Char → Option Nat
  | acc, [] => some acc
  | acc, c :: cs =>
    if c.isDigit then digitsCore (acc * 10 + (c.toNat - 48)) cs
    else if c = '_' then
      match cs with
      | c2 :: cs2 =>
        if c2.isDigit then digitsCore (acc * 10 + (c2.toNat - 48)) cs2 else none
      | [] => none
    else none

/-- Nonempty digit sequence (with optional single underscores between
digits), as accepted by Python `int`. -/
def pyDigits? : List Char → Option Nat
  | [] => none
  | c :: cs => if c.isDigit then digitsCore (c.toNat - 48) cs else none

/-- Python `int(value)` on a string: optional surrounding whitespace,
optional sign, digits with optional single underscores; `none` models
`ValueError`. -/
def pyInt? (s : String) : Option Int :=
  match trimChars s.data with
  | '+' :: rest => (pyDigits? rest).map fun n => (n : Int)
  | '-' :: rest => (pyDigits? rest).map fun n => -(n : Int)
  | rest => (pyDigits? rest).map fun n => (n : Int)

/-! ### The option handlers (query_parser.py lines 106-259) -/

/-- `_parse_count` (query_parser.py lines 106-116):
`options.count = value.lower() == 'true'`. -/
def _parse_count (value : String) (o : ODataQueryOptions) : ODataQueryOptions :=
  { o with count := decide (pyLower value = "true") }

/-- `_parse_expand` (query_parser.py lines 118-129). -/
def _parse_expand (value : String) (o : ODataQueryOptions) : ODataQueryOptions :=
  if value = "" then o
  else { o with expand := some ((pySplit value ',').map pyStrip) }

/-- `_parse_filter` (query_parser.py lines 131-141):
`options.filter_ = self.filter_parser.parse(value)`; an error raised by
the filter parser propagates. -/
def _parse_filter (value : String) (o : ODataQueryOptions) :
    Except QueryError ODataQueryOptions :=
  match filterParse value with
  | .error e => .error (.filterError e)
  | .ok t => .ok { o with filter_ := some t }

/-- `_parse_format` (query_parser.py lines 143-161). -/
def _parse_format (value : String) (o : ODataQueryOptions) :
    Except QueryError ODataQueryOptions :=
  if value ∈ (["json", "xml", "csv", "tsv"] : List String) then
    .ok { o with format_ := some value }
  else .error (.unsupportedFormat value)

/-- The per-item body of `_parse_orderby` (query_parser.py
lines 177-190). -/
def parseOrderbyItem (item0 : String) : OrderbyItem :=
  let item := pyStrip item0
  let low := pyLower item
  if pyEndsWith low " asc" then
    { field := pyStrip (pyReplace item " asc" ""), direction := "asc" }
  else if pyEndsWith low " desc" then
    { field := pyStrip (pyReplace item " desc" ""), direction := "desc" }
  else { field := item, direction := "asc" }

/-- `_parse_orderby` (query_parser.py lines 163-192). -/
def _parse_orderby (value : String) (o : ODataQueryOptions) : ODataQueryOptions :=
  if value = "" then o
  else { o with orderby := some ((pySplit value ',').map parseOrderbyItem) }

/-- `_parse_search` (query_parser.py lines 194-204). -/
def _parse_search (value : String) (o : ODataQueryOptions) : ODataQueryOptions :=
  { o with search := some (pyStrip value) }

/-- `_parse_select` (query_parser.py lines 206-217). -/
def _parse_select (value : String) (o : ODataQueryOptions) : ODataQueryOptions :=
  if value = "" then o
  else { o with select := some ((pySplit value ',').map pyStrip) }

/-- `_parse_skip` (query_parser.py lines 219-238): `int(value)` must
succeed and be nonnegative, otherwise `NoPositiveIntegerValue` is
raised. -/
def _parse_skip (value : String) (o : ODataQueryOptions) :
    Except QueryError ODataQueryOptions :=
  match pyInt? value with
  | some n =>
    if 0 ≤ n then .ok { o with skip := some n }
    else .error (.noPositiveIntegerValue "$skip" value)
  | none => .error (.noPositiveIntegerValue "$skip" value)

/-- `_parse_top` (query_parser.py lines 240-259). -/
def _parse_top (value : String) (o : ODataQueryOptions) :
    Except QueryError ODataQueryOptions :=
  match pyInt? value with
  | some n =>
    if 0 ≤ n then .ok { o with top := some n }
    else .error (.noPositiveIntegerValue "$top" value)
  | none => .error (.noPositiveIntegerValue "$top" value)

/-! ### `parse_query_params` and the two entry points -/

/-- The keys of `self.supported_options` (query_parser.py lines 28-38). -/
def supportedKeys : List String :=
  ["$count", "$expand", "$filter", "$format", "$orderby",
   "$search", "$select", "$skip", "$top"]

/-- `parser_func = self.supported_options[param]; parser_func(value,
options)` (query_parser.py lines 101-102). -/
def dispatch (param : String) (v : String) (o : ODataQueryOptions) :
    Except QueryError ODataQueryOptions :=
  if param = "$count" then .ok (_parse_count v o)
  else if param = "$expand" then .ok (_parse_expand v o)
  else if param = "$filter" then _parse_filter v o
  else if param = "$format" then _parse_format v o
  else if param = "$orderby" then .ok (_parse_orderby v o)
  else if param = "$search" then .ok (_parse_search v o)
  else if param = "$select" then .ok (_parse_select v o)
  else if param = "$skip" then _parse_skip v o
  else if param = "$top" then _parse_top v o
  else .ok o

/-- A query-parameter mapping: keys with their value lists, in iteration
order.  A value may be `none` to model Python `None` (checked at
query_parser.py line 98). -/
abbrev QueryParams : Type := List (String × List (Option String))

/-- One iteration of the loop of `parse_query_params` (query_parser.py
lines 93-102): unsupported keys are skipped, the first value is taken
(`values[0] if values else None`), `None` is skipped, otherwise the
matching handler runs. -/
def applyParam (o : ODataQueryOptions) (kv : String × List (Option String)) :
    Except QueryError ODataQueryOptions :=
  if kv.1 ∈ supportedKeys then
    match kv.2.head? with
    | some (some v) => dispatch kv.1 v o
    | _ => .ok o
  else .ok o

/-- `parse_query_params` (query_parser.py lines 75-104). -/
def parse_query_params (qp : QueryParams) : Except QueryError ODataQueryOptions :=
  List.foldlM applyParam defaultOptions qp

/-- Hexadecimal digit value. -/
def hexVal? (c : Char) : Option Nat :=
  if c.isDigit then some (c.toNat - 48)
  else if 'a' ≤ c ∧ c ≤ 'f' then some (c.toNat - 87)
  else if 'A' ≤ c ∧ c ≤ 'F' then some (c.toNat - 55)
  else none

/-- Percent-decoding of `urllib.parse.unquote` (invalid escapes are left
untouched). -/
def percentDecode : List Char → List Char
  | [] => []
  | '%' :: a :: b :: rest =>
    match hexVal? a, hexVal? b with
    | some x, some y => Char.ofNat (16 * x + y) :: percentDecode rest
    | _, _ => '%' :: percentDecode (a :: b :: rest)
  | c :: rest => c :: percentDecode rest

/-- `urllib.parse.unquote_plus`: `+` to space, then percent-decoding. -/
def unquotePlus (s : String) : String :=
  ⟨percentDecode (s.data.map fun c => if c = '+' then ' ' else c)⟩

/-- Python `pair.partition('=')` projected to (before, after); the after
part is empty when there is no `=`. -/
def partitionEq : List Char → List Char × List Char
  | [] => ([], [])
  | c :: cs =>
    if c = '=' then ([], cs)
    else
      let p := partitionEq cs
      (c :: p.1, p.2)

/-- `urllib.parse.parse_qsl` with default arguments: split the query
string at `&`, skip empty chunks and chunks with an empty value
(`keep_blank_values=False`), and percent-plus-decode names and values. -/
def parse_qsl (qs : String) : List (String × String) :=
  (splitOnChar '&' qs.data).filterMap fun pair =>
    if pair.isEmpty then none
    else
      let p := partitionEq pair
      if p.2.isEmpty then none
      else some (unquotePlus ⟨p.1⟩, unquotePlus ⟨p.2⟩)

/-- Fold one name/value pair into the dict-of-lists built by
`urllib.parse.parse_qs` (first-seen key order, values appended). -/
def addPair (acc : List (String × List String)) (kv : String × String) :
    List (String × List String) :=
  if acc.any fun e => e.1 = kv.1 then
    acc.map fun e => if e.1 = kv.1 then (e.1, e.2 ++ [kv.2]) else e
  else acc ++ [(kv.1, [kv.2])]

/-- `urllib.parse.parse_qs` with default arguments. -/
def parse_qs (qs : String) : List (String × List String) :=
  (parse_qsl qs).foldl addPair []

/-- `parse_query_string` (query_parser.py lines 58-73):
`parse_qs` then `parse_query_params`. -/
def parse_query_string (query_string : String) : Except QueryError ODataQueryOptions :=
  parse_query_params ((parse_qs query_string).map fun kv => (kv.1, kv.2.map some))

/-- Characters before the first occurrence of `c`. -/
def takeUntilChar (c : Char) : List Char → List Char
  | [] => []
  | x :: xs => if x = c then [] else x :: takeUntilChar c xs

/-- Characters after the first occurrence of `c` (empty when absent). -/
def dropThroughChar (c : Char) : List Char → List Char
  | [] => []
  | x :: xs => if x = c then xs else dropThroughChar c xs

/-- The query component `urllib.parse.urlparse` extracts from a URL: the
fragment (everything from the first `#`) is removed first, then the query
is everything after the first remaining `?`. -/
def urlparseQuery (url : String) : String :=
  ⟨dropThroughChar '?' (takeUntilChar '#' url.data)⟩

/-- `parse_url` (query_parser.py lines 41-56): `urlparse(url)` then
`parse_query_string(parsed_url.query)`. -/
def parse_url (url : String) : Except QueryError ODataQueryOptions :=
  parse_query_string (urlparseQuery url)

/-- Instrumentation for the `$filter` collaboration contract: the number
of times the loop of `parse_query_params` invokes
`self.filter_parser.parse` when started from options `o`, following the
same control flow (the traversal stops at the first raised error). -/
def filterCallsFrom (o : ODataQueryOptions) : QueryParams → Nat
  | [] => 0
  | kv :: rest =>
    let here : Nat :=
      if kv.1 = "$filter" then
        match kv.2.head? with
        | some (some _) => 1
        | _ => 0
      else 0
    match applyParam o kv with
    | .ok o2 => here + filterCallsFrom o2 rest
    | .error _ => here

/-- Number of `filter_parser.parse` invocations during
`parse_query_params`. -/
def filterCalls (qp : QueryParams) : Nat := filterCallsFrom defaultOptions qp

/-! ## Concrete inputs used in the theorems below -/

/-- The characters of the filter string `Name eq 'O''Brien'` (built by
code point to keep quote handling uniform). -/
def obrienInput : List Char :=
  ['N', 'a', 'm', 'e', ' ', 'e', 'q', ' ',
   quoteChar, 'O', quoteChar, quoteChar, 'B', 'r', 'i', 'e', 'n', quoteChar]

/-- The string `O'Brien`. -/
def obrienVal : String := ⟨['O', quoteChar, 'B', 'r', 'i', 'e', 'n']⟩

/-- The characters of the filter string `a eq 'unterminated`. -/
def untermInput : List Char :=
  ['a', ' ', 'e', 'q', ' ',
   quoteChar, 'u', 'n', 't', 'e', 'r', 'm', 'i', 'n', 'a', 't', 'e', 'd']

/-- A string-literal body with no closing quote before end of input:
every quote in it is immediately doubled (hence escaped), and the input
ends inside the literal. -/
def noCloser : List Char → Bool
  | [] => true
  | c :: rest =>
    if c = quoteChar then
      match rest with
      | c2 :: rest2 => c2 = quoteChar && noCloser rest2
      | [] => false
    else noCloser rest

/-- A query-parameter mapping whose `$skip` parameter precedes its
`$filter` parameter and fails validation. -/
def skipBeforeFilterParams : QueryParams :=
  [("$skip", [some "x"]), ("$filter", [some "a eq 1"])]

/-- `Comparison(a, eq, 1)`. -/
def cmpA : FilterNode := .comparison ["a"] .eq (.num "1")

/-- `Comparison(b, eq, 2)`. -/
def cmpB : FilterNode := .comparison ["b"] .eq (.num "2")

/-- `Comparison(c, eq, 3)`. -/
def cmpC : FilterNode := .comparison ["c"] .eq (.num "3")

/-- The token tail `or b eq 2` as seen by the `or` loop. -/
def orLoopTail : List Token := [.orK, .ident "b", .cmp .eq, .numLit "2"]

/-- Every option field whose key differs from `k` agrees between `o` and
`o2` (each handler owns exactly one field). -/
abbrev frameExcept (k : String) (o o2 : ODataQueryOptions) : Prop :=
  (k ≠ "$count" → o2.count = o.count) ∧
  (k ≠ "$expand" → o2.expand = o.expand) ∧
  (k ≠ "$filter" → o2.filter_ = o.filter_) ∧
  (k ≠ "$format" → o2.format_ = o.format_) ∧
  (k ≠ "$orderby" → o2.orderby = o.orderby) ∧
  (k ≠ "$search" → o2.search = o.search) ∧
  (k ≠ "$select" → o2.select = o.select) ∧
  (k ≠ "$skip" → o2.skip = o.skip) ∧
  (k ≠ "$top" → o2.top = o.top)

/-! ## Theorems -/

/-- C9: for every URL string, `parse_url` returns the same
`ODataQueryOptions` record as `parse_query_string` applied to the query
component that `urlparse` extracts from the URL. -/
theorem claim_parse_url_equiv :
    ∀ url : String, parse_url url = parse_query_string (urlparseQuery url) :=
  fun _ => rfl

/-- C3: `_parse_format` raises `UnsupportedFormat` exactly when the value
is not one of the four exact strings `json`, `xml`, `csv`, `tsv`
(case-sensitively), and otherwise sets `format_` to the value without
raising. -/
theorem claim_format :
    ∀ (v : String) (o : ODataQueryOptions),
      (v ∈ (["json", "xml", "csv", "tsv"] : List String) →
        _parse_format v o = .ok { o with format_ := some v }) ∧
      (v ∉ (["json", "xml", "csv", "tsv"] : List String) →
        _parse_format v o = .error (.unsupportedFormat v)) := by
  intro v o
  constructor
  · intro h
    simp [_parse_format, h]
  · intro h
    simp [_parse_format, h]

/-- Witness for C3 at the inputs `json` (supported) and `JSON` (rejected:
membership is case-sensitive). -/
theorem claim_format_witness :
    _parse_format "json" defaultOptions
      = .ok { defaultOptions with format_ := some "json" } ∧
    _parse_format "JSON" defaultOptions
      = .error (.unsupportedFormat "JSON") :=
  ⟨(claim_format "json" defaultOptions).1 (by decide),
   (claim_format "JSON" defaultOptions).2 (by decide)⟩

/-- C2: `_parse_skip` raises `NoPositiveIntegerValue` exactly when the
value does not parse as an integer or parses to a negative integer, and
otherwise sets `options.skip` to the parsed nonnegative integer without
raising; `_parse_top` behaves identically for `options.top`. -/
theorem claim_skip_top :
    ∀ (v : String) (o : ODataQueryOptions),
      (∀ n : Int, pyInt? v = some n → 0 ≤ n →
        _parse_skip v o = .ok { o with skip := some n } ∧
        _parse_top v o = .ok { o with top := some n }) ∧
      ((pyInt? v = none ∨ ∃ n : Int, pyInt? v = some n ∧ n < 0) →
        _parse_skip v o = .error (.noPositiveIntegerValue "$skip" v) ∧
        _parse_top v o = .error (.noPositiveIntegerValue "$top" v)) := by
  intro v o
  constructor
  · intro n hn hge
    rw [_parse_skip, _parse_top, hn]
    simp [hge]
  · intro h
    rcases h with h | ⟨n, hn, hneg⟩
    · rw [_parse_skip, _parse_top, h]
      exact ⟨rfl, rfl⟩
    · rw [_parse_skip, _parse_top, hn]
      simp [not_le.mpr hneg]

/-- Witness for C2 at the inputs `5` (accepted) and `-1` (rejected). -/
theorem claim_skip_top_witness :
    (_parse_skip "5" defaultOptions = .ok { defaultOptions with skip := some 5 } ∧
     _parse_top "5" defaultOptions = .ok { defaultOptions with top := some 5 }) ∧
    (_parse_skip "-1" defaultOptions
       = .error (.noPositiveIntegerValue "$skip" "-1") ∧
     _parse_top "-1" defaultOptions
       = .error (.noPositiveIntegerValue "$top" "-1")) :=
  ⟨(claim_skip_top "5" defaultOptions).1 5 rfl (by decide),
   (claim_skip_top "-1" defaultOptions).2 (Or.inr ⟨-1, rfl, by decide⟩)⟩

/-- C8: on a non-empty value, `_parse_orderby` stores one entry per
comma-separated item, each entry being a field/direction record whose
direction is always `asc` or `desc`, and is `asc` whenever the trimmed
item does not end case-insensitively in ` asc` or ` desc`. -/
theorem claim_orderby_shape :
    ∀ (v : String) (o : ODataQueryOptions), v ≠ "" →
      (_parse_orderby v o).orderby = some ((pySplit v ',').map parseOrderbyItem) ∧
      ((pySplit v ',').map parseOrderbyItem).length = (pySplit v ',').length ∧
      ∀ item ∈ pySplit v ',',
        ((parseOrderbyItem item).direction = "asc" ∨
         (parseOrderbyItem item).direction = "desc") ∧
        (¬ (pyEndsWith (pyLower (pyStrip item)) " asc" = true ∨
            pyEndsWith (pyLower (pyStrip item)) " desc" = true) →
          (parseOrderbyItem item).direction = "asc") := by
  intro v o hv
  refine ⟨?_, ?_, ?_⟩
  · rw [_parse_orderby, if_neg hv]
  · simp
  · intro item _
    rw [parseOrderbyItem]
    constructor
    · split_ifs <;> simp
    · intro hno
      push_neg at hno
      simp [hno.1, hno.2]

/-- Witness for C8 at the value `a, b desc`. -/
theorem claim_orderby_shape_witness :
    (_parse_orderby "a, b desc" defaultOptions).orderby
      = some ((pySplit "a, b desc" ',').map parseOrderbyItem) ∧
    ∀ item ∈ pySplit "a, b desc" ',',
      (parseOrderbyItem item).direction = "asc" ∨
      (parseOrderbyItem item).direction = "desc" := by
  have h := claim_orderby_shape "a, b desc" defaultOptions (by decide)
  exact ⟨h.1, fun item hm => (h.2.2 item hm).1⟩

/-- C6: filter parsing is all-or-nothing with typed failures: `a eq`
fails with a `SyntaxError`, `a eq 'unterminated` fails with a `LexError`,
`(a eq 1` fails with a `SyntaxError`, and every call surfaces either a
complete tree or a typed error, never a partially built tree. -/
theorem claim_error_boundary :
    filterParse "a eq" = .error .synErr ∧
    filterParse ⟨untermInput⟩ = .error .lexErr ∧
    filterParse "(a eq 1" = .error .synErr ∧
    ∀ s : String, (∃ t, filterParse s = .ok t) ∨ ∃ e, filterParse s = .error e := by
  refine ⟨rfl, rfl, rfl, ?_⟩
  intro s
  cases h : filterParse s with
  | ok t => exact Or.inl ⟨t, rfl⟩
  | error e => exact Or.inr ⟨e, rfl⟩

/-- The lexer consumes an escaped string-literal body up to its closing
quote, unescaping each doubled quote, provided the character after the
closing quote is not another quote. -/
theorem lexString_esc (xs : List Char) :
    ∀ (acc cs : List Char), cs.head? ≠ some quoteChar →
      lexString acc (escQuotes xs ++ quoteChar :: cs) = .ok (⟨acc ++ xs⟩, cs) := by
  induction xs with
  | nil =>
    intro acc cs hcs
    cases cs with
    | nil => simp [escQuotes, lexString]
    | cons c2 cs2 =>
      have hc2 : ¬c2 = quoteChar := by
        intro h
        exact hcs (by simp [h])
      simp [escQuotes, lexString, hc2]
  | cons x xs ih =>
    intro acc cs hcs
    by_cases hx : x = quoteChar
    · subst hx
      have e1 : escQuotes (quoteChar :: xs) ++ quoteChar :: cs
          = quoteChar :: quoteChar :: (escQuotes xs ++ quoteChar :: cs) := by
        simp [escQuotes]
      have e2 : lexString acc (quoteChar :: quoteChar :: (escQuotes xs ++ quoteChar :: cs))
          = lexString (acc ++ [quoteChar]) (escQuotes xs ++ quoteChar :: cs) := by
        simp [lexString]
      rw [e1, e2, ih (acc ++ [quoteChar]) cs hcs]
      simp
    · obtain ⟨d, ds, hds⟩ : ∃ d ds, escQuotes xs ++ quoteChar :: cs = d :: ds := by
        cases hE : escQuotes xs with
        | nil => exact ⟨quoteChar, cs, by simp⟩
        | cons a as => exact ⟨a, as ++ quoteChar :: cs, by simp⟩
      have e1 : escQuotes (x :: xs) ++ quoteChar :: cs
          = x :: (escQuotes xs ++ quoteChar :: cs) := by
        simp [escQuotes, hx]
      have e2 : lexString acc (x :: d :: ds) = lexString (acc ++ [x]) (d :: ds) := by
        simp [lexString, hx]
      rw [e1, hds, e2, ← hds, ih (acc ++ [x]) cs hcs]
      simp

/-- On a body with no closing quote before end of input, the lexer always
reports a lex error. -/
theorem noCloser_lex :
    ∀ (n : Nat) (cs : List Char), cs.length ≤ n → ∀ acc : List Char,
      noCloser cs = true → lexString acc cs = .error .lexErr := by
  intro n
  induction n with
  | zero =>
    intro cs hlen acc _
    have : cs = [] := List.eq_nil_of_length_eq_zero (Nat.le_zero.mp hlen)
    subst this
    rfl
  | succ n ih =>
    intro cs hlen acc hnc
    cases cs with
    | nil => rfl
    | cons c rest =>
      by_cases hc : c = quoteChar
      · subst hc
        cases rest with
        | nil => simp [noCloser] at hnc
        | cons c2 rest2 =>
          have hnc2 : c2 = quoteChar ∧ noCloser rest2 = true := by
            simpa [noCloser] using hnc
          have e2 : lexString acc (quoteChar :: c2 :: rest2)
              = lexString (acc ++ [quoteChar]) rest2 := by
            simp [lexString, hnc2.1]
          rw [e2]
          exact ih rest2 (by simp at hlen ⊢; omega) _ hnc2.2
      · cases rest with
        | nil =>
          have e2 : lexString acc [c] = lexString (acc ++ [c]) [] := by
            simp [lexString, hc]
          rw [e2]
          rfl
        | cons c2 rest2 =>
          have hnc2 : noCloser (c2 :: rest2) = true := by
            simpa [noCloser, hc] using hnc
          have e2 : lexString acc (c :: c2 :: rest2)
              = lexString (acc ++ [c]) (c2 :: rest2) := by
            simp [lexString, hc]
          rw [e2]
          exact ih (c2 :: rest2) (by simp at hlen ⊢; omega) _ hnc2

/-- C5: a doubled single quote inside a string literal denotes one
escaped quote — `Name eq 'O''Brien'` parses to a comparison whose literal
is the string `O'Brien`, the lexer unescapes every doubled quote of an
escaped body, and a literal with no closing quote before end of input is
a lex error. -/
theorem claim_quote_escaping :
    filterParse ⟨obrienInput⟩ = .ok (.comparison ["Name"] .eq (.str obrienVal)) ∧
    (∀ xs acc cs : List Char, cs.head? ≠ some quoteChar →
      lexString acc (escQuotes xs ++ quoteChar :: cs) = .ok (⟨acc ++ xs⟩, cs)) ∧
    (∀ acc cs : List Char, noCloser cs = true → lexString acc cs = .error .lexErr) :=
  ⟨rfl, fun xs acc cs h => lexString_esc xs acc cs h,
   fun acc cs h => noCloser_lex cs.length cs le_rfl acc h⟩

/-- Witness for C5: the escape lemma applied to the body `O'Brien` and
the no-closing-quote lemma applied to the unterminated body `unt`. -/
theorem claim_quote_escaping_witness :
    lexString [] (escQuotes obrienVal.data ++ [quoteChar]) = .ok (obrienVal, []) ∧
    lexString [] ['u', 'n', 't'] = .error .lexErr := by
  constructor
  · have h := claim_quote_escaping.2.1 obrienVal.data [] [] (by decide)
    simpa using h
  · exact claim_quote_escaping.2.2 [] ['u', 'n', 't'] (by decide)

/-- A successful run of the `or` loop left-folds `Logical(or, ·, ·)` over
the `and`-level operands it parses, starting from its accumulator. -/
theorem orLoop_foldl :
    ∀ (f : Nat) (acc : FilterNode) (toks : List Token) (t : FilterNode) (r : List Token),
      parseStep f (.orLoopC acc toks) = .ok (t, r) →
      ∃ ns : List FilterNode, t = ns.foldl (.logical .or) acc := by
  intro f
  induction f with
  | zero =>
    intro acc toks t r h
    simp [parseStep] at h
  | succ f ih =>
    intro acc toks t r h
    cases toks with
    | nil =>
      simp only [parseStep] at h
      exact ⟨[], by simp [← (Prod.mk.injEq .. ▸ (Except.ok.injEq .. ▸ h : _)).1]⟩
    | cons tk rest =>
      by_cases htk : tk = Token.orK
      · simp only [parseStep, if_pos htk] at h
        cases hp : parseStep f (.andC rest) with
        | error e => rw [hp] at h; exact absurd h (by simp)
        | ok br =>
          rw [hp] at h
          obtain ⟨ns, hns⟩ := ih _ _ _ _ h
          exact ⟨br.1 :: ns, by simpa using hns⟩
      · simp only [parseStep, if_neg htk] at h
        refine ⟨[], ?_⟩
        have := (Except.ok.injEq .. ▸ h : (acc, tk :: rest) = (t, r))
        simp [← (Prod.mk.injEq .. ▸ this).1]

/-- A successful run of the `and` loop left-folds `Logical(and, ·, ·)`
over the `not`-level operands it parses, starting from its
accumulator. -/
theorem andLoop_foldl :
    ∀ (f : Nat) (acc : FilterNode) (toks : List Token) (t : FilterNode) (r : List Token),
      parseStep f (.andLoopC acc toks) = .ok (t, r) →
      ∃ ns : List FilterNode, t = ns.foldl (.logical .and) acc := by
  intro f
  induction f with
  | zero =>
    intro acc toks t r h
    simp [parseStep] at h
  | succ f ih =>
    intro acc toks t r h
    cases toks with
    | nil =>
      simp only [parseStep] at h
      exact ⟨[], by simp [← (Prod.mk.injEq .. ▸ (Except.ok.injEq .. ▸ h : _)).1]⟩
    | cons tk rest =>
      by_cases htk : tk = Token.andK
      · simp only [parseStep, if_pos htk] at h
        cases hp : parseStep f (.unaryC rest) with
        | error e => rw [hp] at h; exact absurd h (by simp)
        | ok br =>
          rw [hp] at h
          obtain ⟨ns, hns⟩ := ih _ _ _ _ h
          exact ⟨br.1 :: ns, by simpa using hns⟩
      · simp only [parseStep, if_neg htk] at h
        refine ⟨[], ?_⟩
        have := (Except.ok.injEq .. ▸ h : (acc, tk :: rest) = (t, r))
        simp [← (Prod.mk.injEq .. ▸ this).1]

/-- C4: `a eq 1 or b eq 2 and c eq 3` parses with `and` binding tighter
than `or`; `not` binds tighter than `and`; and both `and` and `or`
associate to the left — concretely on `a or b or c`-shaped inputs, and in
general the two parser loops build left folds of their operands. -/
theorem claim_precedence_assoc :
    filterParse "a eq 1 or b eq 2 and c eq 3"
      = .ok (.logical .or cmpA (.logical .and cmpB cmpC)) ∧
    filterParse "a eq 1 or b eq 2 or c eq 3"
      = .ok (.logical .or (.logical .or cmpA cmpB) cmpC) ∧
    filterParse "a eq 1 and b eq 2 and c eq 3"
      = .ok (.logical .and (.logical .and cmpA cmpB) cmpC) ∧
    filterParse "not a eq 1 and b eq 2"
      = .ok (.logical .and (.unary cmpA) cmpB) ∧
    (∀ (f : Nat) (acc t : FilterNode) (toks r : List Token),
      parseStep f (.orLoopC acc toks) = .ok (t, r) →
      ∃ ns : List FilterNode, t = ns.foldl (.logical .or) acc) ∧
    (∀ (f : Nat) (acc t : FilterNode) (toks r : List Token),
      parseStep f (.andLoopC acc toks) = .ok (t, r) →
      ∃ ns : List FilterNode, t = ns.foldl (.logical .and) acc) :=
  ⟨rfl, rfl, rfl, rfl,
   fun f acc t toks r h => orLoop_foldl f acc toks t r h,
   fun f acc t toks r h => andLoop_foldl f acc toks t r h⟩

/-- Witness for C4: the left-fold statements applied to a concrete run of
each loop. -/
theorem claim_precedence_assoc_witness :
    (∃ ns : List FilterNode,
      FilterNode.logical .or cmpA cmpB = ns.foldl (.logical .or) cmpA) ∧
    (∃ ns : List FilterNode,
      FilterNode.logical .and cmpA cmpB = ns.foldl (.logical .and) cmpA) :=
  ⟨claim_precedence_assoc.2.2.2.2.1 10 cmpA (.logical .or cmpA cmpB)
      orLoopTail [] rfl,
   claim_precedence_assoc.2.2.2.2.2 10 cmpA (.logical .and cmpA cmpB)
      [.andK, .ident "b", .cmp .eq, .numLit "2"] [] rfl⟩

/-- `frameExcept` is reflexive. -/
theorem frameExcept_refl (k : String) (o : ODataQueryOptions) : frameExcept k o o :=
  ⟨fun _ => rfl, fun _ => rfl, fun _ => rfl, fun _ => rfl, fun _ => rfl,
   fun _ => rfl, fun _ => rfl, fun _ => rfl, fun _ => rfl⟩

/-- Each handler reached through `dispatch` modifies only the option
field owned by its key. -/
theorem dispatch_frame (k v : String) (o o2 : ODataQueryOptions)
    (h : dispatch k v o = .ok o2) : frameExcept k o o2 := by
  rw [dispatch] at h
  split_ifs at h with h1 h2 h3 h4 h5 h6 h7 h8 h9
  · subst h1
    injection h with h'
    subst h'
    refine ⟨?_, ?_, ?_, ?_, ?_, ?_, ?_, ?_, ?_⟩ <;> intro hk <;>
      first | exact absurd rfl hk | simp [_parse_count]
  · subst h2
    injection h with h'
    subst h'
    refine ⟨?_, ?_, ?_, ?_, ?_, ?_, ?_, ?_, ?_⟩ <;> intro hk <;>
      first
      | exact absurd rfl hk
      | (rw [_parse_expand]; split_ifs <;> simp)
  · subst h3
    rw [_parse_filter] at h
    cases hf : filterParse v with
    | error e => rw [hf] at h; exact absurd h (by simp)
    | ok t =>
      rw [hf] at h
      injection h with h'
      subst h'
      refine ⟨?_, ?_, ?_, ?_, ?_, ?_, ?_, ?_, ?_⟩ <;> intro hk <;>
        first | exact absurd rfl hk | simp
  · subst h4
    rw [_parse_format] at h
    split_ifs at h with hv
    injection h with h'
    subst h'
    refine ⟨?_, ?_, ?_, ?_, ?_, ?_, ?_, ?_, ?_⟩ <;> intro hk <;>
      first | exact absurd rfl hk | simp
  · subst h5
    injection h with h'
    subst h'
    refine ⟨?_, ?_, ?_, ?_, ?_, ?_, ?_, ?_, ?_⟩ <;> intro hk <;>
      first
      | exact absurd rfl hk
      | (rw [_parse_orderby]; split_ifs <;> simp)
  · subst h6
    injection h with h'
    subst h'
    refine ⟨?_, ?_, ?_, ?_, ?_, ?_, ?_, ?_, ?_⟩ <;> intro hk <;>
      first | exact absurd rfl hk | simp [_parse_search]
  · subst h7
    injection h with h'
    subst h'
    refine ⟨?_, ?_, ?_, ?_, ?_, ?_, ?_, ?_, ?_⟩ <;> intro hk <;>
      first
      | exact absurd rfl hk
      | (rw [_parse_select]; split_ifs <;> simp)
  · subst h8
    cases hp : pyInt? v with
    | none =>
      have e : _parse_skip v o = .error (.noPositiveIntegerValue "$skip" v) := by
        simp [_parse_skip, hp]
      rw [e] at h
      exact Except.noConfusion h
    | some n =>
      by_cases hn : 0 ≤ n
      · have e : _parse_skip v o = .ok { o with skip := some n } := by
          simp [_parse_skip, hp, hn]
        rw [e] at h
        injection h with h'
        subst h'
        refine ⟨?_, ?_, ?_, ?_, ?_, ?_, ?_, ?_, ?_⟩ <;> intro hk <;>
          first | exact absurd rfl hk | simp
      · have e : _parse_skip v o = .error (.noPositiveIntegerValue "$skip" v) := by
          simp [_parse_skip, hp, hn]
        rw [e] at h
        exact Except.noConfusion h
  · subst h9
    cases hp : pyInt? v with
    | none =>
      have e : _parse_top v o = .error (.noPositiveIntegerValue "$top" v) := by
        simp [_parse_top, hp]
      rw [e] at h
      exact Except.noConfusion h
    | some n =>
      by_cases hn : 0 ≤ n
      · have e : _parse_top v o = .ok { o with top := some n } := by
          simp [_parse_top, hp, hn]
        rw [e] at h
        injection h with h'
        subst h'
        refine ⟨?_, ?_, ?_, ?_, ?_, ?_, ?_, ?_, ?_⟩ <;> intro hk <;>
          first | exact absurd rfl hk | simp
      · have e : _parse_top v o = .error (.noPositiveIntegerValue "$top" v) := by
          simp [_parse_top, hp, hn]
        rw [e] at h
        exact Except.noConfusion h
  · injection h with h'
    subst h'
    exact frameExcept_refl _ _

/-- One loop iteration of `parse_query_params` modifies only the field
owned by the entry key. -/
theorem applyParam_frame (o : ODataQueryOptions) (kv : String × List (Option String))
    (o2 : ODataQueryOptions) (h : applyParam o kv = .ok o2) : frameExcept kv.1 o o2 := by
  rw [applyParam] at h
  by_cases hs : kv.1 ∈ supportedKeys
  · rw [if_pos hs] at h
    cases hh : kv.2.head? with
    | none =>
      rw [hh] at h
      injection h with h'
      subst h'
      exact frameExcept_refl _ _
    | some ov =>
      cases ov with
      | none =>
        rw [hh] at h
        injection h with h'
        subst h'
        exact frameExcept_refl _ _
      | some v =>
        rw [hh] at h
        exact dispatch_frame kv.1 v o o2 h
  · rw [if_neg hs] at h
    injection h with h'
    subst h'
    exact frameExcept_refl _ _

/-- Entries with an unsupported key, an empty value list, or a `None`
first value are no-ops for the loop of `parse_query_params`. -/
theorem applyParam_noop (o : ODataQueryOptions) (kv : String × List (Option String))
    (h : kv.1 ∉ supportedKeys ∨ kv.2 = [] ∨ kv.2.head? = some none) :
    applyParam o kv = .ok o := by
  rw [applyParam]
  rcases h with h | h | h
  · rw [if_neg h]
  · simp [h]
  · simp [h]

/-- Only the first value of an entry is consulted by the loop of
`parse_query_params`. -/
theorem applyParam_take1 (o : ODataQueryOptions) (k : String)
    (vs : List (Option String)) :
    applyParam o (k, vs.take 1) = applyParam o (k, vs) := by
  cases vs <;> rfl

/-- A fold of `applyParam` leaves any given option field unchanged when
every occurrence of the field's key carries an empty value list. -/
theorem foldlM_field_frame {α : Type} (fld : ODataQueryOptions → α) (k : String)
    (hframe : ∀ (o : ODataQueryOptions) (kv : String × List (Option String))
      (o2 : ODataQueryOptions), kv.1 ≠ k → applyParam o kv = .ok o2 → fld o2 = fld o) :
    ∀ (qp : QueryParams) (o0 o1 : ODataQueryOptions),
      List.foldlM applyParam o0 qp = .ok o1 →
      (∀ vs, (k, vs) ∈ qp → vs = []) → fld o1 = fld o0 := by
  intro qp
  induction qp with
  | nil =>
    intro o0 o1 h _
    rw [List.foldlM_nil] at h
    injection h with h'
    subst h'
    rfl
  | cons kv rest ih =>
    intro o0 o1 h hk
    rw [List.foldlM_cons] at h
    cases ha : applyParam o0 kv with
    | error e => rw [ha] at h; exact Except.noConfusion h
    | ok o' =>
      rw [ha] at h
      have h' : List.foldlM applyParam o' rest = .ok o1 := h
      have step : fld o' = fld o0 := by
        by_cases hkk : kv.1 = k
        · obtain ⟨k1, vs⟩ := kv
          simp only at hkk
          subst hkk
          have hnil : vs = [] := hk vs (List.mem_cons_self _ _)
          subst hnil
          have : applyParam o0 (k1, ([] : List (Option String))) = .ok o0 :=
            applyParam_noop _ _ (Or.inr (Or.inl rfl))
          rw [this] at ha
          injection ha with ha'
          subst ha'
          rfl
        · exact hframe o0 kv o' hkk ha
      rw [ih o' o1 h' fun vs hm => hk vs (List.mem_cons_of_mem _ hm), step]

/-- C10: `parse_query_params` leaves every option field at its default
unless the mapping has the corresponding supported key with a non-empty
value list; unsupported keys, empty value lists and `None` first values
change nothing; and only the first value of each list is consulted. -/
theorem claim_frame :
    (∀ (qp : QueryParams) (opts : ODataQueryOptions),
      parse_query_params qp = .ok opts →
      ((∀ vs, ("$count", vs) ∈ qp → vs = []) → opts.count = false) ∧
      ((∀ vs, ("$expand", vs) ∈ qp → vs = []) → opts.expand = none) ∧
      ((∀ vs, ("$filter", vs) ∈ qp → vs = []) → opts.filter_ = none) ∧
      ((∀ vs, ("$format", vs) ∈ qp → vs = []) → opts.format_ = none) ∧
      ((∀ vs, ("$orderby", vs) ∈ qp → vs = []) → opts.orderby = none) ∧
      ((∀ vs, ("$search", vs) ∈ qp → vs = []) → opts.search = none) ∧
      ((∀ vs, ("$select", vs) ∈ qp → vs = []) → opts.select = none) ∧
      ((∀ vs, ("$skip", vs) ∈ qp → vs = []) → opts.skip = none) ∧
      ((∀ vs, ("$top", vs) ∈ qp → vs = []) → opts.top = none)) ∧
    (∀ (pre : QueryParams) (kv : String × List (Option String)) (post : QueryParams),
      kv.1 ∉ supportedKeys ∨ kv.2 = [] ∨ kv.2.head? = some none →
      parse_query_params (pre ++ kv :: post) = parse_query_params (pre ++ post)) ∧
    (∀ qp : QueryParams,
      parse_query_params (qp.map fun kv => (kv.1, kv.2.take 1))
        = parse_query_params qp) := by
  refine ⟨?_, ?_, ?_⟩
  · intro qp opts h
    refine ⟨?_, ?_, ?_, ?_, ?_, ?_, ?_, ?_, ?_⟩
    · exact fun hk => foldlM_field_frame (fun o => o.count) "$count"
        (fun o kv o2 hne ha => (applyParam_frame o kv o2 ha).1 hne) qp _ _ h hk
    · exact fun hk => foldlM_field_frame (fun o => o.expand) "$expand"
        (fun o kv o2 hne ha => (applyParam_frame o kv o2 ha).2.1 hne) qp _ _ h hk
    · exact fun hk => foldlM_field_frame (fun o => o.filter_) "$filter"
        (fun o kv o2 hne ha => (applyParam_frame o kv o2 ha).2.2.1 hne) qp _ _ h hk
    · exact fun hk => foldlM_field_frame (fun o => o.format_) "$format"
        (fun o kv o2 hne ha => (applyParam_frame o kv o2 ha).2.2.2.1 hne) qp _ _ h hk
    · exact fun hk => foldlM_field_frame (fun o => o.orderby) "$orderby"
        (fun o kv o2 hne ha => (applyParam_frame o kv o2 ha).2.2.2.2.1 hne) qp _ _ h hk
    · exact fun hk => foldlM_field_frame (fun o => o.search) "$search"
        (fun o kv o2 hne ha => (applyParam_frame o kv o2 ha).2.2.2.2.2.1 hne) qp _ _ h hk
    · exact fun hk => foldlM_field_frame (fun o => o.select) "$select"
        (fun o kv o2 hne ha => (applyParam_frame o kv o2 ha).2.2.2.2.2.2.1 hne) qp _ _ h hk
    · exact fun hk => foldlM_field_frame (fun o => o.skip) "$skip"
        (fun o kv o2 hne ha => (applyParam_frame o kv o2 ha).2.2.2.2.2.2.2.1 hne) qp _ _ h hk
    · exact fun hk => foldlM_field_frame (fun o => o.top) "$top"
        (fun o kv o2 hne ha => (applyParam_frame o kv o2 ha).2.2.2.2.2.2.2.2 hne) qp _ _ h hk
  · intro pre kv post h
    rw [parse_query_params, parse_query_params, List.foldlM_append, List.foldlM_append]
    cases hp : List.foldlM applyParam defaultOptions pre with
    | error e => rfl
    | ok o1 =>
      show List.foldlM applyParam o1 (kv :: post) = List.foldlM applyParam o1 post
      rw [List.foldlM_cons, applyParam_noop o1 kv h]
      rfl
  · intro qp
    rw [parse_query_params, parse_query_params]
    suffices hgen : ∀ (l : QueryParams) (o : ODataQueryOptions),
        List.foldlM applyParam o (l.map fun kv => (kv.1, kv.2.take 1))
          = List.foldlM applyParam o l from hgen qp defaultOptions
    intro l
    induction l with
    | nil => intro o; rfl
    | cons kv rest ih =>
      intro o
      rw [List.map_cons, List.foldlM_cons, List.foldlM_cons]
      have h1 : applyParam o (kv.1, kv.2.take 1) = applyParam o kv :=
        applyParam_take1 o kv.1 kv.2
      rw [h1]
      cases applyParam o kv with
      | error e => rfl
      | ok o' => exact ih o'

/-- Witness for C10: applying the frame statement, the no-op statement
and the first-value statement at concrete mappings. -/
theorem claim_frame_witness :
    (({ defaultOptions with top := some 5 } : ODataQueryOptions).count = false) ∧
    parse_query_params [("x", [some "1"]), ("$count", [some "true"])]
      = parse_query_params [("$count", [some "true"])] ∧
    parse_query_params [("$skip", [some "1", some "2"])]
      = parse_query_params [("$skip", [some "1"])] := by
  refine ⟨?_, ?_, ?_⟩
  · exact (claim_frame.1 [("$top", [some "5"])]
      { defaultOptions with top := some 5 } rfl).1
      (by intro vs hm; simp at hm)
  · exact claim_frame.2.1 [] ("x", [some "1"]) [("$count", [some "true"])]
      (Or.inl (by decide))
  · exact (claim_frame.2.2 [("$skip", [some "1", some "2"])]).symm

/-- A traversal over entries none of which is keyed `$filter` never
invokes the filter parser. -/
theorem filterCallsFrom_noFilter :
    ∀ qp : QueryParams, (∀ kv ∈ qp, kv.1 ≠ "$filter") →
      ∀ o : ODataQueryOptions, filterCallsFrom o qp = 0 := by
  intro qp
  induction qp with
  | nil => intro _ o; rfl
  | cons kv rest ih =>
    intro h o
    have hk : kv.1 ≠ "$filter" := h kv (List.mem_cons_self _ _)
    cases ha : applyParam o kv with
    | ok o2 =>
      simp [filterCallsFrom, hk, ha,
        ih (fun kv2 hm => h kv2 (List.mem_cons_of_mem _ hm)) o2]
    | error e => simp [filterCallsFrom, hk, ha]

/-- The invocation count over a prefix that processes without error and
contains no `$filter` key reduces to the count over the remainder. -/
theorem filterCallsFrom_append_ok :
    ∀ (pre : QueryParams) (o o1 : ODataQueryOptions) (rest : QueryParams),
      List.foldlM applyParam o pre = .ok o1 → (∀ kv ∈ pre, kv.1 ≠ "$filter") →
      filterCallsFrom o (pre ++ rest) = filterCallsFrom o1 rest := by
  intro pre
  induction pre with
  | nil =>
    intro o o1 rest h _
    rw [List.foldlM_nil] at h
    injection h with h'
    subst h'
    rfl
  | cons kv pre' ih =>
    intro o o1 rest h hk
    rw [List.foldlM_cons] at h
    cases ha : applyParam o kv with
    | error e => rw [ha] at h; exact Except.noConfusion h
    | ok o' =>
      rw [ha] at h
      have h' : List.foldlM applyParam o' pre' = .ok o1 := h
      have hk1 : kv.1 ≠ "$filter" := hk kv (List.mem_cons_self _ _)
      rw [List.cons_append]
      simp [filterCallsFrom, hk1, ha,
        ih o' o1 rest h' fun kv2 hm => hk kv2 (List.mem_cons_of_mem _ hm)]

/-- C1 counterexample: a mapping that contains `$filter` with the
non-empty first value `a eq 1` (behind a `$skip` parameter that fails
validation) on which `parse_query_params` never invokes the filter
parser's `parse` and raises the `$skip` error instead. -/
theorem claim_filter_dispatch_cex :
    List.Nodup (skipBeforeFilterParams.map Prod.fst) ∧
    ("$filter", [some "a eq 1"]) ∈ skipBeforeFilterParams ∧
    ("a eq 1" : String) ≠ "" ∧
    filterCalls skipBeforeFilterParams = 0 ∧
    parse_query_params skipBeforeFilterParams
      = .error (.noPositiveIntegerValue "$skip" "x") :=
  ⟨by decide, by decide, by decide, rfl, rfl⟩

/-- C1 (amended): when every entry before `$filter` processes without
error, `parse_query_params` invokes the filter parser's `parse` exactly
once, with the first `$filter` value; an error from that call propagates
unmodified, and whenever an options record is returned its `filter_`
field is the returned `FilterNode`. -/
theorem claim_filter_dispatch_amended :
    ∀ (pre post : QueryParams) (vs : List (Option String)) (v : String)
      (o1 : ODataQueryOptions),
      vs.head? = some (some v) → v ≠ "" →
      (∀ kv ∈ pre, kv.1 ≠ "$filter") → (∀ kv ∈ post, kv.1 ≠ "$filter") →
      List.foldlM applyParam defaultOptions pre = .ok o1 →
      filterCalls (pre ++ ("$filter", vs) :: post) = 1 ∧
      (∀ e, filterParse v = .error e →
        parse_query_params (pre ++ ("$filter", vs) :: post)
          = .error (.filterError e)) ∧
      (∀ t, filterParse v = .ok t →
        ∀ opts, parse_query_params (pre ++ ("$filter", vs) :: post) = .ok opts →
          opts.filter_ = some t) := by
  intro pre post vs v o1 hv hvne hpre hpost hfold
  have happ : applyParam o1 ("$filter", vs) = _parse_filter v o1 := by
    simp [applyParam, hv, dispatch, supportedKeys]
  refine ⟨?_, ?_, ?_⟩
  · rw [filterCalls, filterCallsFrom_append_ok pre _ o1 _ hfold hpre]
    cases hfp : filterParse v with
    | error e =>
      have ha2 : applyParam o1 ("$filter", vs) = .error (.filterError e) := by
        rw [happ, _parse_filter, hfp]
      simp [filterCallsFrom, hv, ha2]
    | ok t =>
      have ha2 : applyParam o1 ("$filter", vs)
          = .ok { o1 with filter_ := some t } := by
        rw [happ, _parse_filter, hfp]
      simp [filterCallsFrom, hv, ha2, filterCallsFrom_noFilter post hpost]
  · intro e hfp
    have ha2 : applyParam o1 ("$filter", vs) = .error (.filterError e) := by
      rw [happ, _parse_filter, hfp]
    rw [parse_query_params, List.foldlM_append, hfold]
    show List.foldlM applyParam o1 (("$filter", vs) :: post) = _
    rw [List.foldlM_cons, ha2]
    rfl
  · intro t hfp opts h
    have ha2 : applyParam o1 ("$filter", vs)
        = .ok { o1 with filter_ := some t } := by
      rw [happ, _parse_filter, hfp]
    rw [parse_query_params, List.foldlM_append, hfold] at h
    have h' : List.foldlM applyParam o1 (("$filter", vs) :: post) = .ok opts := h
    rw [List.foldlM_cons, ha2] at h'
    have h'' : List.foldlM applyParam { o1 with filter_ := some t } post
        = .ok opts := h'
    have := foldlM_field_frame (fun o => o.filter_) "$filter"
      (fun o kv o2 hne ha => (applyParam_frame o kv o2 ha).2.2.1 hne)
      post _ _ h'' fun vs2 hm => absurd rfl (hpost _ hm)
    simpa using this

/-- Witness for the amended C1 at a concrete mapping whose `$top`
parameter precedes `$filter` and succeeds. -/
theorem claim_filter_dispatch_witness :
    filterCalls ([("$top", [some "3"])] ++
      ("$filter", [some "a eq 1"]) :: [("$count", [some "true"])]) = 1 :=
  (claim_filter_dispatch_amended [("$top", [some "3"])] [("$count", [some "true"])]
    [some "a eq 1"] "a eq 1" { defaultOptions with top := some 3 }
    rfl (by decide) (by decide) (by decide) rfl).1


/-- A character satisfying one Boolean character class differs from any
character refuting it. -/
theorem char_ne_of (p : Char → Bool) (c x : Char) (h : p c = true) (hx : p x = false) :
    c ≠ x := fun e => by rw [e, hx] at h; exact Bool.noConfusion h

/-- Identifier characters are not whitespace. -/
theorem identChar_not_ws (c : Char) (h : isIdentChar c = true) : c.isWhitespace = false := by
  cases hw : c.isWhitespace with
  | false => rfl
  | true =>
    have hd : ((c = ' ' ∨ c = '\t') ∨ c = '\r') ∨ c = '\n' := by
      simpa [Char.isWhitespace] using hw
    rcases hd with ((rfl | rfl) | rfl) | rfl <;> exact absurd h (by decide)

/-- Digits are not whitespace. -/
theorem digit_not_ws (c : Char) (h : c.isDigit = true) : c.isWhitespace = false := by
  cases hw : c.isWhitespace with
  | false => rfl
  | true =>
    have hd : ((c = ' ' ∨ c = '\t') ∨ c = '\r') ∨ c = '\n' := by
      simpa [Char.isWhitespace] using hw
    rcases hd with ((rfl | rfl) | rfl) | rfl <;> exact absurd h (by decide)

/-- The rest left by `takeDigits` is no longer than the input. -/
theorem takeDigits_rest_le (cs : List Char) : (takeDigits cs).2.length ≤ cs.length := by
  induction cs with
  | nil => simp [takeDigits]
  | cons c cs ih =>
    rw [takeDigits]
    split_ifs with h
    · simpa using Nat.le_succ_of_le ih
    · simp

/-- `takeDigits` splits its input into the digits and the rest. -/
theorem takeDigits_append_eq (cs : List Char) :
    (takeDigits cs).1 ++ (takeDigits cs).2 = cs := by
  induction cs with
  | nil => simp [takeDigits]
  | cons c cs ih =>
    rw [takeDigits]
    split_ifs with h
    · simpa using ih
    · simp

/-- Every character taken by `takeDigits` is a digit. -/
theorem takeDigits_digits (cs : List Char) : ∀ c ∈ (takeDigits cs).1, c.isDigit = true := by
  induction cs with
  | nil => simp [takeDigits]
  | cons c cs ih =>
    rw [takeDigits]
    split_ifs with h
    · intro x hx
      simp at hx
      rcases hx with rfl | hx
      · exact h
      · exact ih x hx
    · simp

/-- The rest left by `takeDigits` starts with a non-digit. -/
theorem takeDigits_rest_head (cs : List Char) :
    ∀ c l, (takeDigits cs).2 = c :: l → c.isDigit = false := by
  induction cs with
  | nil => simp [takeDigits]
  | cons c0 cs ih =>
    rw [takeDigits]
    split_ifs with h
    · simpa using ih
    · intro c l he
      simp at he
      rw [← he.1]
      cases hh : c0.isDigit with
      | false => rfl
      | true => exact absurd hh h

/-- `takeDigits` takes all of an all-digit prefix and stops at a
non-digit (or the end). -/
theorem takeDigits_exact (xs : List Char) (r : List Char)
    (hxs : ∀ c ∈ xs, c.isDigit = true)
    (hr : ∀ c l, r = c :: l → c.isDigit = false) :
    takeDigits (xs ++ r) = (xs, r) := by
  induction xs with
  | nil =>
    cases r with
    | nil => simp [takeDigits]
    | cons c l => simp [takeDigits, hr c l rfl]
  | cons x xs ih =>
    have hx : x.isDigit = true := hxs x (by simp)
    rw [List.cons_append, takeDigits, if_pos hx,
      ih fun c hc => hxs c (by simp [hc])]

/-- The rest left by `takeIdent` is no longer than the input. -/
theorem takeIdent_rest_le (cs : List Char) : (takeIdent cs).2.length ≤ cs.length := by
  induction cs with
  | nil => simp [takeIdent]
  | cons c cs ih =>
    rw [takeIdent]
    split_ifs with h
    · simpa using Nat.le_succ_of_le ih
    · simp

/-- Every character taken by `takeIdent` is an identifier character. -/
theorem takeIdent_chars (cs : List Char) : ∀ c ∈ (takeIdent cs).1, isIdentChar c = true := by
  induction cs with
  | nil => simp [takeIdent]
  | cons c cs ih =>
    rw [takeIdent]
    split_ifs with h
    · intro x hx
      simp at hx
      rcases hx with rfl | hx
      · exact h
      · exact ih x hx
    · simp

/-- `takeIdent` takes all of an all-identifier prefix and stops at a
non-identifier character (or the end). -/
theorem takeIdent_exact (xs : List Char) (r : List Char)
    (hxs : ∀ c ∈ xs, isIdentChar c = true)
    (hr : ∀ c l, r = c :: l → isIdentChar c = false) :
    takeIdent (xs ++ r) = (xs, r) := by
  induction xs with
  | nil =>
    cases r with
    | nil => simp [takeIdent]
    | cons c l => simp [takeIdent, hr c l rfl]
  | cons x xs ih =>
    have hx : isIdentChar x = true := hxs x (by simp)
    rw [List.cons_append, takeIdent, if_pos hx,
      ih fun c hc => hxs c (by simp [hc])]

/-- The rest returned by a successful `lexString` is no longer than the
input. -/
theorem lexString_rest_le :
    ∀ (n : Nat) (cs : List Char), cs.length ≤ n → ∀ acc s r,
      lexString acc cs = .ok (s, r) → r.length ≤ cs.length := by
  intro n
  induction n with
  | zero =>
    intro cs hlen acc s r h
    have : cs = [] := List.eq_nil_of_length_eq_zero (Nat.le_zero.mp hlen)
    subst this
    exact absurd h (by simp [lexString])
  | succ n ih =>
    intro cs hlen acc s r h
    cases cs with
    | nil => exact absurd h (by simp [lexString])
    | cons c rest =>
      by_cases hc : c = quoteChar
      · subst hc
        cases rest with
        | nil =>
          have h' : (⟨acc⟩ : String) = s ∧ ([] : List Char) = r := by
            simpa [lexString] using h
          simp [← h'.2]
        | cons c2 rest2 =>
          by_cases hc2 : c2 = quoteChar
          · subst hc2
            have h' : lexString (acc ++ [quoteChar]) rest2 = .ok (s, r) := by
              simpa [lexString] using h
            have := ih rest2 (by simp at hlen ⊢; omega) _ _ _ h'
            simp at this ⊢
            omega
          · have h' : (⟨acc⟩ : String) = s ∧ c2 :: rest2 = r := by
              simpa [lexString, hc2] using h
            simp [← h'.2]
      · have h' : lexString (acc ++ [c]) rest = .ok (s, r) := by
          cases rest with
          | nil => simpa [lexString, hc] using h
          | cons d ds => simpa [lexString, hc] using h
        have := ih rest (by simp at hlen ⊢; omega) _ _ _ h'
        simp
        omega



/-- `lexNumber` on empty digits is a lex error. -/
theorem lexNumber_err_nodigits (sg : Bool) (cs : List Char)
    (h1 : (takeDigits cs).1 = []) : lexNumber sg cs = .error .lexErr := by
  simp [lexNumber, h1]

/-- `lexNumber` when the digits are followed by end of input. -/
theorem lexNumber_eq_plain_nil (sg : Bool) (cs : List Char)
    (h1 : (takeDigits cs).1 ≠ []) (h2 : (takeDigits cs).2 = []) :
    lexNumber sg cs
      = .ok (⟨(if sg then ['-'] else []) ++ (takeDigits cs).1⟩, []) := by
  simp [lexNumber, h1, h2]

/-- `lexNumber` when the digits are followed by a non-dot character. -/
theorem lexNumber_eq_plain_cons (sg : Bool) (cs : List Char) (c : Char) (l : List Char)
    (h1 : (takeDigits cs).1 ≠ []) (h2 : (takeDigits cs).2 = c :: l) (hc : c ≠ '.') :
    lexNumber sg cs
      = .ok (⟨(if sg then ['-'] else []) ++ (takeDigits cs).1⟩, c :: l) := by
  simp [lexNumber, h1, h2, hc]

/-- `lexNumber` when the digits are followed by a dot and more digits. -/
theorem lexNumber_eq_frac (sg : Bool) (cs : List Char) (r2 : List Char)
    (h1 : (takeDigits cs).1 ≠ []) (heq : (takeDigits cs).2 = '.' :: r2)
    (h2 : (takeDigits r2).1 ≠ []) :
    lexNumber sg cs
      = .ok (⟨(if sg then ['-'] else []) ++ (takeDigits cs).1 ++ '.' :: (takeDigits r2).1⟩,
          (takeDigits r2).2) := by
  simp [lexNumber, h1, heq, h2]

/-- `lexNumber` when the dot is followed by no digits. -/
theorem lexNumber_err_frac (sg : Bool) (cs : List Char) (r2 : List Char)
    (h1 : (takeDigits cs).1 ≠ []) (heq : (takeDigits cs).2 = '.' :: r2)
    (h2 : (takeDigits r2).1 = []) : lexNumber sg cs = .error .lexErr := by
  simp [lexNumber, h1, heq, h2]


/-- Case analysis on a successful `lexNumber`: the literal text and rest
have one of the two lexical shapes. -/
theorem lexNumber_cases (sg : Bool) (cs : List Char) (s : String) (r : List Char)
    (h : lexNumber sg cs = .ok (s, r)) :
    (takeDigits cs).1 ≠ [] ∧
    ((s = ⟨(if sg then ['-'] else []) ++ (takeDigits cs).1⟩ ∧ r = (takeDigits cs).2) ∨
     (∃ r2, (takeDigits cs).2 = '.' :: r2 ∧ (takeDigits r2).1 ≠ [] ∧
       s = ⟨(if sg then ['-'] else []) ++ (takeDigits cs).1 ++ '.' :: (takeDigits r2).1⟩ ∧
       r = (takeDigits r2).2)) := by
  by_cases h1 : (takeDigits cs).1 = []
  · rw [lexNumber_err_nodigits sg cs h1] at h
    exact Except.noConfusion h
  · refine ⟨h1, ?_⟩
    cases h2 : (takeDigits cs).2 with
    | nil =>
      rw [lexNumber_eq_plain_nil sg cs h1 h2] at h
      injection h with h3
      injection h3 with h4 h5
      exact Or.inl ⟨h4.symm, h5.symm⟩
    | cons c l =>
      by_cases hc : c = '.'
      · subst hc
        by_cases h3 : (takeDigits l).1 = []
        · rw [lexNumber_err_frac sg cs l h1 h2 h3] at h
          exact Except.noConfusion h
        · rw [lexNumber_eq_frac sg cs l h1 h2 h3] at h
          injection h with h4
          injection h4 with h5 h6
          exact Or.inr ⟨l, rfl, h3, h5.symm, h6.symm⟩
      · rw [lexNumber_eq_plain_cons sg cs c l h1 h2 hc] at h
        injection h with h3
        injection h3 with h4 h5
        exact Or.inl ⟨h4.symm, h5.symm⟩

/-- The rest returned by a successful `lexNumber` is no longer than the
input. -/
theorem lexNumber_rest_le (sg : Bool) (cs : List Char) (s : String) (r : List Char)
    (h : lexNumber sg cs = .ok (s, r)) : r.length ≤ cs.length := by
  obtain ⟨h1, hsh⟩ := lexNumber_cases sg cs s r h
  have l2 : (takeDigits cs).2.length ≤ cs.length := takeDigits_rest_le cs
  rcases hsh with ⟨_, rfl⟩ | ⟨r2, heq, _, _, rfl⟩
  · exact l2
  · have l3 : (takeDigits r2).2.length ≤ r2.length := takeDigits_rest_le r2
    rw [heq] at l2
    simp at l2
    omega

/-- `numCore` holds on nonempty digits. -/
theorem numCore_plain (ds : List Char) (hne : ds ≠ [])
    (hd : ∀ c ∈ ds, c.isDigit = true) : numCore ds = true := by
  have : takeDigits (ds ++ []) = (ds, []) := takeDigits_exact ds [] hd (by simp)
  rw [List.append_nil] at this
  simp [numCore, this, hne]

/-- `numCore` holds on digits, a dot, and more digits. -/
theorem numCore_frac (ds fs : List Char) (hds : ds ≠ []) (hfs : fs ≠ [])
    (hd : ∀ c ∈ ds, c.isDigit = true) (hf : ∀ c ∈ fs, c.isDigit = true) :
    numCore (ds ++ '.' :: fs) = true := by
  have h1 : takeDigits (ds ++ '.' :: fs) = (ds, '.' :: fs) :=
    takeDigits_exact ds ('.' :: fs) hd (by intro c l he; injection he with he1 _; rw [← he1]; decide)
  have h2 : takeDigits (fs ++ []) = (fs, []) := takeDigits_exact fs [] hf (by simp)
  rw [List.append_nil] at h2
  simp [numCore, h1, h2, hds, hfs]

/-- `numWF` holds when the tail of a leading minus satisfies `numCore`. -/
theorem numWF_minus (l : List Char) (h : numCore l = true) :
    numWF ('-' :: l) = true := by
  simp [numWF, h]

/-- `numWF` holds on a digit-headed list satisfying `numCore`. -/
theorem numWF_digit (c : Char) (l : List Char) (hc : c.isDigit = true)
    (h : numCore (c :: l) = true) : numWF (c :: l) = true := by
  have : c ≠ '-' := char_ne_of Char.isDigit c '-' hc (by decide)
  simp [numWF, this, h]

/-- The text of a successful `lexNumber` is a well-formed numeric
lexeme. -/
theorem lexNumber_wf (sg : Bool) (cs : List Char) (s : String) (r : List Char)
    (h : lexNumber sg cs = .ok (s, r)) : numWF s.data = true := by
  obtain ⟨h1, hsh⟩ := lexNumber_cases sg cs s r h
  have hdig := takeDigits_digits cs
  rcases hsh with ⟨rfl, _⟩ | ⟨r2, heq, h3, rfl, _⟩
  · have hcore : numCore (takeDigits cs).1 = true := numCore_plain _ h1 hdig
    cases sg with
    | true => simpa using numWF_minus _ hcore
    | false =>
      cases hds : (takeDigits cs).1 with
      | nil => exact absurd hds h1
      | cons d l =>
        have hd : d.isDigit = true := hdig d (by rw [hds]; simp)
        rw [hds] at hcore
        simpa [hds] using numWF_digit d l hd hcore
  · have hcore : numCore ((takeDigits cs).1 ++ '.' :: (takeDigits r2).1) = true :=
      numCore_frac _ _ h1 h3 hdig (takeDigits_digits r2)
    cases sg with
    | true => simpa using numWF_minus _ hcore
    | false =>
      cases hds : (takeDigits cs).1 with
      | nil => exact absurd hds h1
      | cons d l =>
        have hd : d.isDigit = true := hdig d (by rw [hds]; simp)
        rw [hds] at hcore
        simpa [hds] using numWF_digit d (l ++ '.' :: (takeDigits r2).1) hd hcore


/-- `splitOnChar` never returns the empty list of groups. -/
theorem splitOnChar_ne_nil (sep : Char) (cs : List Char) : splitOnChar sep cs ≠ [] := by
  cases cs with
  | nil => simp [splitOnChar]
  | cons c rest =>
    rw [splitOnChar]
    cases h : splitOnChar sep rest with
    | nil => simp
    | cons g gs => split_ifs <;> simp

/-- No group produced by `splitOnChar` contains the separator. -/
theorem splitOnChar_no_sep (sep : Char) (cs : List Char) :
    ∀ g ∈ splitOnChar sep cs, sep ∉ g := by
  induction cs with
  | nil => simp [splitOnChar]
  | cons c rest ih =>
    rw [splitOnChar]
    cases h : splitOnChar sep rest with
    | nil => simp
    | cons g gs =>
      rw [h] at ih
      split_ifs with hc
      · intro g2 hg2
        simp at hg2
        rcases hg2 with rfl | heq | hmem
        · simp
        · exact ih g2 (by simp [heq])
        · exact ih g2 (by simp [hmem])
      · intro g2 hg2
        simp at hg2
        rcases hg2 with rfl | hg2
        · intro hmem
          simp at hmem
          rcases hmem with rfl | hmem
          · exact hc rfl
          · exact ih g (by simp) hmem
        · exact ih g2 (by simp [hg2])

/-- Joining the groups of `splitOnChar` restores the input. -/
theorem joinWith_splitOnChar (sep : Char) (cs : List Char) :
    joinWith sep (splitOnChar sep cs) = cs := by
  induction cs with
  | nil => simp [splitOnChar, joinWith]
  | cons c rest ih =>
    rw [splitOnChar]
    cases h : splitOnChar sep rest with
    | nil => exact absurd h (splitOnChar_ne_nil sep rest)
    | cons g gs =>
      rw [h] at ih
      split_ifs with hc
      · subst hc
        rw [joinWith, ih]
        simp
      · cases gs with
        | nil =>
          rw [joinWith] at ih ⊢
          rw [ih]
        | cons g2 gs2 =>
          rw [joinWith] at ih ⊢
          rw [List.cons_append, ih]

/-- `splitOnChar` of a separator-free list is one group. -/
theorem splitOnChar_sep_free (sep : Char) (x : List Char) (hx : sep ∉ x) :
    splitOnChar sep x = [x] := by
  induction x with
  | nil => rfl
  | cons c rest ih =>
    have hc : ¬c = sep := fun e => hx (by simp [e])
    rw [splitOnChar, ih fun hm => hx (by simp [hm])]
    simp [hc]

/-- `splitOnChar` after a separator-free prefix and a separator. -/
theorem splitOnChar_append_sep (sep : Char) (x l : List Char) (hx : sep ∉ x) :
    splitOnChar sep (x ++ sep :: l) = x :: splitOnChar sep l := by
  induction x with
  | nil =>
    rw [List.nil_append, splitOnChar]
    cases h : splitOnChar sep l with
    | nil => exact absurd h (splitOnChar_ne_nil sep l)
    | cons g gs => simp
  | cons c rest ih =>
    have hc : ¬c = sep := fun e => hx (by simp [e])
    rw [List.cons_append, splitOnChar, ih fun hm => hx (by simp [hm])]
    simp [hc]

/-- Splitting a join of separator-free groups restores the groups. -/
theorem splitOnChar_joinWith (sep : Char) (ls : List (List Char)) (hne : ls ≠ [])
    (hn : ∀ l ∈ ls, sep ∉ l) : splitOnChar sep (joinWith sep ls) = ls := by
  induction ls with
  | nil => exact absurd rfl hne
  | cons x ls ih =>
    cases ls with
    | nil => exact splitOnChar_sep_free sep x (hn x (by simp))
    | cons y ls2 =>
      rw [joinWith, splitOnChar_append_sep sep x _ (hn x (by simp)),
        ih (by simp) fun l hm => hn l (by simp [hm])]


/-- On a well-formed field path, the parser recovers the path from its
`/`-joined identifier lexeme. -/
theorem fieldPathOf_joinPath (p : List String) (hwf : pathWF p = true) :
    fieldPathOf (joinPath p) = some p := by
  simp only [pathWF, Bool.and_eq_true] at hwf
  obtain ⟨⟨hne, hall⟩, _⟩ := hwf
  rw [List.all_eq_true] at hall
  have hsplit : splitOnChar '/' (joinPath p).data = p.map String.data := by
    show splitOnChar '/' (joinWith '/' (p.map String.data)) = p.map String.data
    refine splitOnChar_joinWith '/' (p.map String.data) ?_ ?_
    · simp at hne ⊢
      exact fun e => hne (by simp [e])
    · intro l hl
      rw [List.mem_map] at hl
      obtain ⟨s, hs, rfl⟩ := hl
      have h2 := hall s hs
      simp only [Bool.and_eq_true, List.all_eq_true] at h2
      intro hm
      have h3 := h2.2 '/' hm
      simp at h3
  rw [fieldPathOf, hsplit]
  have hguard : ((p.map String.data).all fun seg => !seg.isEmpty) = true := by
    rw [List.all_eq_true]
    intro seg hseg
    rw [List.mem_map] at hseg
    obtain ⟨s, hs, rfl⟩ := hseg
    have h2 := hall s hs
    simp only [Bool.and_eq_true] at h2
    exact h2.1
  rw [if_pos hguard]
  rw [List.map_map]
  have hcomp : ((fun seg => (⟨seg⟩ : String)) ∘ String.data) = id := funext fun s => rfl
  rw [hcomp, List.map_id]

/-- The path the parser builds from a well-formed identifier token is
well-formed. -/
theorem fieldPathOf_wf (s : String) (hid : identWF s.data = true)
    (p : List String) (h : fieldPathOf s = some p) : pathWF p = true := by
  rw [fieldPathOf] at h
  split_ifs at h with hguard
  injection h with h'
  subst h'
  rw [pathWF]
  refine (Bool.and_eq_true _ _).mpr ⟨(Bool.and_eq_true _ _).mpr ⟨?_, ?_⟩, ?_⟩
  · have hnn := splitOnChar_ne_nil '/' s.data
    cases hs : splitOnChar '/' s.data with
    | nil => exact absurd hs hnn
    | cons g gs => simp [hs]
  · rw [List.all_eq_true]
    intro x hx
    rw [List.mem_map] at hx
    obtain ⟨g, hg, rfl⟩ := hx
    rw [List.all_eq_true] at hguard
    refine (Bool.and_eq_true _ _).mpr ⟨hguard g hg, ?_⟩
    rw [List.all_eq_true]
    intro c hc
    have hmem : c ∈ g := hc
    exact decide_eq_true fun e => (splitOnChar_no_sep '/' s.data g hg) (e ▸ hmem)
  · have hjoin : (joinPath ((splitOnChar '/' s.data).map fun seg => (⟨seg⟩ : String))).data
        = s.data := by
      show joinWith '/' ((((splitOnChar '/' s.data)).map
        fun seg => (⟨seg⟩ : String)).map String.data) = s.data
      rw [List.map_map]
      have hcomp : (String.data ∘ fun seg => (⟨seg⟩ : String))
          = (id : List Char → List Char) := funext fun g => rfl
      rw [hcomp, List.map_id]
      exact joinWith_splitOnChar '/' s.data
    rw [hjoin]
    exact hid


/-- A run whose lowercase form is not a keyword is classified as an
identifier. -/
theorem keywordToken_eq_ident (run : List Char)
    (h : (⟨run.map Char.toLower⟩ : String) ∉ kwStrings) :
    keywordToken run = .ident ⟨run⟩ := by
  have hne : ∀ x : String, x ∈ kwStrings → ¬(⟨run.map Char.toLower⟩ : String) = x :=
    fun x hx e => h (e ▸ hx)
  rw [keywordToken]
  rw [if_neg (hne "true" (by decide)), if_neg (hne "false" (by decide)),
    if_neg (hne "null" (by decide)), if_neg (hne "and" (by decide)),
    if_neg (hne "or" (by decide)), if_neg (hne "not" (by decide)),
    if_neg (hne "eq" (by decide)), if_neg (hne "ne" (by decide)),
    if_neg (hne "gt" (by decide)), if_neg (hne "ge" (by decide)),
    if_neg (hne "lt" (by decide)), if_neg (hne "le" (by decide)),
    if_neg (hne "contains" (by decide)), if_neg (hne "startswith" (by decide)),
    if_neg (hne "endswith" (by decide))]

/-- The token produced from a non-digit-headed identifier run is
well-formed. -/
theorem keywordToken_wf (c0 : Char) (l0 : List Char)
    (hd : c0.isDigit = false) (hcs : ∀ c ∈ c0 :: l0, isIdentChar c = true) :
    tokWF (keywordToken (c0 :: l0)) = true := by
  by_cases hm : (⟨(c0 :: l0).map Char.toLower⟩ : String) ∈ kwStrings
  · simp only [kwStrings, List.mem_cons, List.not_mem_nil, or_false] at hm
    rcases hm with e | e | e | e | e | e | e | e | e | e | e | e | e | e | e <;>
      · rw [keywordToken, e]
        simp [tokWF]
  · rw [keywordToken_eq_ident _ hm]
    show identWF (c0 :: l0) = true
    rw [identWF]
    refine (Bool.and_eq_true _ _).mpr ⟨(Bool.and_eq_true _ _).mpr ⟨?_, ?_⟩, ?_⟩
    · simp [hd]
    · rw [List.all_eq_true]
      exact hcs
    · simp only [Bool.not_eq_true']
      show List.elem (⟨(c0 :: l0).map Char.toLower⟩ : String) kwStrings = false
      rw [List.elem_eq_mem]
      exact decide_eq_false hm



/-- `takeDigits` on a digit-headed list. -/
theorem takeDigits_cons_digit (c : Char) (cs : List Char) (hc : c.isDigit = true) :
    takeDigits (c :: cs) = (c :: (takeDigits cs).1, (takeDigits cs).2) := by
  rw [takeDigits, if_pos hc]

/-- `takeIdent` on an identifier-headed list. -/
theorem takeIdent_cons_ident (c : Char) (cs : List Char) (hc : isIdentChar c = true) :
    takeIdent (c :: cs) = (c :: (takeIdent cs).1, (takeIdent cs).2) := by
  rw [takeIdent, if_pos hc]

/-- On a digit-headed input, the rest returned by `lexNumber` is no
longer than the tail. -/
theorem lexNumber_digit_rest_le (c : Char) (cs : List Char) (s : String) (r : List Char)
    (hc : c.isDigit = true) (h : lexNumber false (c :: cs) = .ok (s, r)) :
    r.length ≤ cs.length := by
  obtain ⟨_, hsh⟩ := lexNumber_cases false (c :: cs) s r h
  have htd := takeDigits_cons_digit c cs hc
  have hrest : (takeDigits cs).2.length ≤ cs.length := takeDigits_rest_le cs
  rcases hsh with ⟨_, rfl⟩ | ⟨r2, heq, _, _, rfl⟩
  · rw [htd]
    exact hrest
  · rw [htd] at heq
    simp only at heq
    have h3 : (takeDigits r2).2.length ≤ r2.length := takeDigits_rest_le r2
    rw [heq] at hrest
    simp at hrest
    omega

/-- The tokenizer result does not depend on the fuel, once the fuel
exceeds the input length. -/
theorem tokFuel_irrel :
    ∀ (n : Nat) (cs : List Char), cs.length ≤ n → ∀ f g : Nat,
      cs.length < f → cs.length < g → tokFuel f cs = tokFuel g cs := by
  intro n
  induction n with
  | zero =>
    intro cs hlen f g hf hg
    have : cs = [] := List.eq_nil_of_length_eq_zero (Nat.le_zero.mp hlen)
    subst this
    cases f with
    | zero => omega
    | succ f' =>
      cases g with
      | zero => omega
      | succ g' => rfl
  | succ n ih =>
    intro cs hlen f g hf hg
    cases cs with
    | nil =>
      cases f with
      | zero => omega
      | succ f' =>
        cases g with
        | zero => omega
        | succ g' => rfl
    | cons c cs' =>
      cases f with
      | zero => omega
      | succ f' =>
        cases g with
        | zero => omega
        | succ g' =>
          have hlen' : cs'.length ≤ n := by simp at hlen; omega
          have hf' : cs'.length < f' := by simp at hf; omega
          have hg' : cs'.length < g' := by simp at hg; omega
          simp only [tokFuel]
          split_ifs with hws hq hlp hrp hcm hdg hmn hid
          · exact ih cs' hlen' f' g' hf' hg'
          · cases hlx : lexString [] cs' with
            | error e => rfl
            | ok sr =>
              obtain ⟨s, r⟩ := sr
              have hr : r.length ≤ cs'.length :=
                lexString_rest_le cs'.length cs' le_rfl [] s r hlx
              show consTok (.strLit s) (tokFuel f' r) = consTok (.strLit s) (tokFuel g' r)
              rw [ih r (by omega) f' g' (by omega) (by omega)]
          · rw [ih cs' hlen' f' g' hf' hg']
          · rw [ih cs' hlen' f' g' hf' hg']
          · rw [ih cs' hlen' f' g' hf' hg']
          · cases hlx : lexNumber false (c :: cs') with
            | error e => rfl
            | ok sr =>
              obtain ⟨s, r⟩ := sr
              have hr : r.length ≤ cs'.length := lexNumber_digit_rest_le c cs' s r hdg hlx
              show consTok (.numLit s) (tokFuel f' r) = consTok (.numLit s) (tokFuel g' r)
              rw [ih r (by omega) f' g' (by omega) (by omega)]
          · cases hlx : lexNumber true cs' with
            | error e => rfl
            | ok sr =>
              obtain ⟨s, r⟩ := sr
              have hr : r.length ≤ cs'.length :=
                lexNumber_rest_le true cs' s r hlx
              show consTok (.numLit s) (tokFuel f' r) = consTok (.numLit s) (tokFuel g' r)
              rw [ih r (by omega) f' g' (by omega) (by omega)]
          · have hr : (takeIdent (c :: cs')).2.length ≤ cs'.length := by
              rw [takeIdent_cons_ident c cs' hid]
              exact takeIdent_rest_le cs'
            rw [ih (takeIdent (c :: cs')).2 (by omega) f' g' (by omega) (by omega)]
          · rfl


/-- Every token produced by the tokenizer is well-formed. -/
theorem tokFuel_wf :
    ∀ (n : Nat) (cs : List Char), cs.length ≤ n → ∀ (f : Nat) (ts : List Token),
      tokFuel f cs = .ok ts → ∀ tok ∈ ts, tokWF tok = true := by
  intro n
  induction n with
  | zero =>
    intro cs hlen f ts h
    have : cs = [] := List.eq_nil_of_length_eq_zero (Nat.le_zero.mp hlen)
    subst this
    cases f with
    | zero => exact absurd h (by simp [tokFuel])
    | succ f' =>
      have h' : ts = [] := by
        have h2 : ([] : List Token) = ts := by simpa [tokFuel] using h
        exact h2.symm
      subst h'
      simp
  | succ n ih =>
    intro cs hlen f ts h
    cases cs with
    | nil =>
      cases f with
      | zero => exact absurd h (by simp [tokFuel])
      | succ f' =>
        have h' : ts = [] := by
          have h2 : ([] : List Token) = ts := by simpa [tokFuel] using h
          exact h2.symm
        subst h'
        simp
    | cons c cs' =>
      cases f with
      | zero => exact absurd h (by simp [tokFuel])
      | succ f' =>
        have hlen' : cs'.length ≤ n := by simp at hlen; omega
        simp only [tokFuel] at h
        split_ifs at h with hws hq hlp hrp hcm hdg hmn hid
        · exact ih cs' hlen' f' ts h
        · cases hlx : lexString [] cs' with
          | error e => rw [hlx] at h; exact Except.noConfusion h
          | ok sr =>
            obtain ⟨s, r⟩ := sr
            rw [hlx] at h
            have hC : consTok (Token.strLit s) (tokFuel f' r) = .ok ts := h
            have hr : r.length ≤ cs'.length :=
              lexString_rest_le cs'.length cs' le_rfl [] s r hlx
            cases ht : tokFuel f' r with
            | error e =>
              rw [ht] at hC
              exact absurd hC (by simp [consTok])
            | ok ts' =>
              rw [ht] at hC
              have h2 : Token.strLit s :: ts' = ts := by simpa [consTok] using hC
              subst h2
              intro tok hm
              rcases List.mem_cons.mp hm with rfl | hm2
              · rfl
              · exact ih r (by omega) f' ts' ht tok hm2
        · cases ht : tokFuel f' cs' with
          | error e => rw [ht] at h; exact absurd h (by simp [consTok])
          | ok ts' =>
            rw [ht] at h
            have h2 : Token.lparen :: ts' = ts := by simpa [consTok] using h
            subst h2
            intro tok hm
            rcases List.mem_cons.mp hm with rfl | hm2
            · rfl
            · exact ih cs' hlen' f' ts' ht tok hm2
        · cases ht : tokFuel f' cs' with
          | error e => rw [ht] at h; exact absurd h (by simp [consTok])
          | ok ts' =>
            rw [ht] at h
            have h2 : Token.rparen :: ts' = ts := by simpa [consTok] using h
            subst h2
            intro tok hm
            rcases List.mem_cons.mp hm with rfl | hm2
            · rfl
            · exact ih cs' hlen' f' ts' ht tok hm2
        · cases ht : tokFuel f' cs' with
          | error e => rw [ht] at h; exact absurd h (by simp [consTok])
          | ok ts' =>
            rw [ht] at h
            have h2 : Token.comma :: ts' = ts := by simpa [consTok] using h
            subst h2
            intro tok hm
            rcases List.mem_cons.mp hm with rfl | hm2
            · rfl
            · exact ih cs' hlen' f' ts' ht tok hm2
        · cases hlx : lexNumber false (c :: cs') with
          | error e => rw [hlx] at h; exact Except.noConfusion h
          | ok sr =>
            obtain ⟨s, r⟩ := sr
            rw [hlx] at h
            have hC : consTok (Token.numLit s) (tokFuel f' r) = .ok ts := h
            have hr : r.length ≤ cs'.length := lexNumber_digit_rest_le c cs' s r hdg hlx
            cases ht : tokFuel f' r with
            | error e => rw [ht] at hC; exact absurd hC (by simp [consTok])
            | ok ts' =>
              rw [ht] at hC
              have h2 : Token.numLit s :: ts' = ts := by simpa [consTok] using hC
              subst h2
              intro tok hm
              rcases List.mem_cons.mp hm with rfl | hm2
              · exact lexNumber_wf false (c :: cs') s r hlx
              · exact ih r (by omega) f' ts' ht tok hm2
        · cases hlx : lexNumber true cs' with
          | error e => rw [hlx] at h; exact Except.noConfusion h
          | ok sr =>
            obtain ⟨s, r⟩ := sr
            rw [hlx] at h
            have hC : consTok (Token.numLit s) (tokFuel f' r) = .ok ts := h
            have hr : r.length ≤ cs'.length := lexNumber_rest_le true cs' s r hlx
            cases ht : tokFuel f' r with
            | error e => rw [ht] at hC; exact absurd hC (by simp [consTok])
            | ok ts' =>
              rw [ht] at hC
              have h2 : Token.numLit s :: ts' = ts := by simpa [consTok] using hC
              subst h2
              intro tok hm
              rcases List.mem_cons.mp hm with rfl | hm2
              · exact lexNumber_wf true cs' s r hlx
              · exact ih r (by omega) f' ts' ht tok hm2
        · have hr : (takeIdent (c :: cs')).2.length ≤ cs'.length := by
            rw [takeIdent_cons_ident c cs' hid]
            exact takeIdent_rest_le cs'
          cases ht : tokFuel f' (takeIdent (c :: cs')).2 with
          | error e => rw [ht] at h; exact absurd h (by simp [consTok])
          | ok ts' =>
            rw [ht] at h
            have h2 : keywordToken (takeIdent (c :: cs')).1 :: ts' = ts := by
              simpa [consTok] using h
            subst h2
            intro tok hm
            rcases List.mem_cons.mp hm with rfl | hm2
            · have hdg' : c.isDigit = false := by
                cases hcd : c.isDigit with
                | false => rfl
                | true => exact absurd hcd hdg
              have hrun : (takeIdent (c :: cs')).1 = c :: (takeIdent cs').1 := by
                rw [takeIdent_cons_ident c cs' hid]
              rw [hrun]
              refine keywordToken_wf c (takeIdent cs').1 hdg' ?_
              intro x hx
              rcases List.mem_cons.mp hx with rfl | hx2
              · exact hid
              · exact takeIdent_chars cs' x hx2
            · exact ih _ (by omega) f' ts' ht tok hm2



/-- Literals extracted from well-formed tokens are well-formed. -/
theorem litOfToken_wf (tok : Token) (v : FLit) (hwf : tokWF tok = true)
    (h : litOfToken tok = some v) : litWF v = true := by
  cases tok with
  | strLit s => injection h with h'; subst h'; rfl
  | numLit s => injection h with h'; subst h'; exact hwf
  | boolLit b => injection h with h'; subst h'; rfl
  | nullLit => injection h with h'; subst h'; rfl
  | ident s => exact Option.noConfusion h
  | cmp op => exact Option.noConfusion h
  | andK => exact Option.noConfusion h
  | orK => exact Option.noConfusion h
  | notK => exact Option.noConfusion h
  | func f => exact Option.noConfusion h
  | lparen => exact Option.noConfusion h
  | rparen => exact Option.noConfusion h
  | comma => exact Option.noConfusion h

/-- At every grammar position, a successful parse of well-formed tokens
yields a well-formed tree, and leaves a rest of well-formed tokens. -/
theorem parseStep_wf :
    ∀ f : Nat,
      (∀ toks t r, (∀ tok ∈ toks, tokWF tok = true) →
        parseStep f (.orC toks) = .ok (t, r) →
        wfNode t = true ∧ ∀ tok ∈ r, tokWF tok = true) ∧
      (∀ acc toks t r, wfNode acc = true → (∀ tok ∈ toks, tokWF tok = true) →
        parseStep f (.orLoopC acc toks) = .ok (t, r) →
        wfNode t = true ∧ ∀ tok ∈ r, tokWF tok = true) ∧
      (∀ toks t r, (∀ tok ∈ toks, tokWF tok = true) →
        parseStep f (.andC toks) = .ok (t, r) →
        wfNode t = true ∧ ∀ tok ∈ r, tokWF tok = true) ∧
      (∀ acc toks t r, wfNode acc = true → (∀ tok ∈ toks, tokWF tok = true) →
        parseStep f (.andLoopC acc toks) = .ok (t, r) →
        wfNode t = true ∧ ∀ tok ∈ r, tokWF tok = true) ∧
      (∀ toks t r, (∀ tok ∈ toks, tokWF tok = true) →
        parseStep f (.unaryC toks) = .ok (t, r) →
        wfNode t = true ∧ ∀ tok ∈ r, tokWF tok = true) ∧
      (∀ toks t r, (∀ tok ∈ toks, tokWF tok = true) →
        parseStep f (.primC toks) = .ok (t, r) →
        wfNode t = true ∧ ∀ tok ∈ r, tokWF tok = true) := by
  intro f
  induction f with
  | zero =>
    refine ⟨?_, ?_, ?_, ?_, ?_, ?_⟩
    · intro toks t r _ h
      exact absurd h (by simp [parseStep])
    · intro acc toks t r _ _ h
      exact absurd h (by simp [parseStep])
    · intro toks t r _ h
      exact absurd h (by simp [parseStep])
    · intro acc toks t r _ _ h
      exact absurd h (by simp [parseStep])
    · intro toks t r _ h
      exact absurd h (by simp [parseStep])
    · intro toks t r _ h
      exact absurd h (by simp [parseStep])
  | succ f ih =>
    obtain ⟨ihOr, ihOrL, ihAnd, ihAndL, ihU, ihP⟩ := ih
    have tail : ∀ (tk : Token) (rest : List Token),
        (∀ tok ∈ tk :: rest, tokWF tok = true) → ∀ tok ∈ rest, tokWF tok = true :=
      fun tk rest hwf tok hm => hwf tok (List.mem_cons_of_mem _ hm)
    refine ⟨?_, ?_, ?_, ?_, ?_, ?_⟩
    · -- orC
      intro toks t r hwf h
      simp only [parseStep] at h
      cases hp : parseStep f (.andC toks) with
      | error e => rw [hp] at h; exact Except.noConfusion h
      | ok ar =>
        obtain ⟨a, rest⟩ := ar
        rw [hp] at h
        obtain ⟨ha, hrest⟩ := ihAnd toks a rest hwf hp
        exact ihOrL a rest t r ha hrest h
    · -- orLoopC
      intro acc toks t r hacc hwf h
      cases toks with
      | nil =>
        simp only [parseStep] at h
        injection h with h1
        injection h1 with h2 h3
        subst h2
        subst h3
        exact ⟨hacc, by simp⟩
      | cons tk rest =>
        simp only [parseStep] at h
        split_ifs at h with htk
        · cases hp : parseStep f (.andC rest) with
          | error e => rw [hp] at h; exact Except.noConfusion h
          | ok br =>
            obtain ⟨b, r2⟩ := br
            rw [hp] at h
            obtain ⟨hb, hr2⟩ := ihAnd rest b r2 (tail tk rest hwf) hp
            have hacc2 : wfNode (.logical .or acc b) = true := by
              simp [wfNode, hacc, hb]
            exact ihOrL _ r2 t r hacc2 hr2 h
        · injection h with h1
          injection h1 with h2 h3
          subst h2
          subst h3
          exact ⟨hacc, hwf⟩
    · -- andC
      intro toks t r hwf h
      simp only [parseStep] at h
      cases hp : parseStep f (.unaryC toks) with
      | error e => rw [hp] at h; exact Except.noConfusion h
      | ok ar =>
        obtain ⟨a, rest⟩ := ar
        rw [hp] at h
        obtain ⟨ha, hrest⟩ := ihU toks a rest hwf hp
        exact ihAndL a rest t r ha hrest h
    · -- andLoopC
      intro acc toks t r hacc hwf h
      cases toks with
      | nil =>
        simp only [parseStep] at h
        injection h with h1
        injection h1 with h2 h3
        subst h2
        subst h3
        exact ⟨hacc, by simp⟩
      | cons tk rest =>
        simp only [parseStep] at h
        split_ifs at h with htk
        · cases hp : parseStep f (.unaryC rest) with
          | error e => rw [hp] at h; exact Except.noConfusion h
          | ok br =>
            obtain ⟨b, r2⟩ := br
            rw [hp] at h
            obtain ⟨hb, hr2⟩ := ihU rest b r2 (tail tk rest hwf) hp
            have hacc2 : wfNode (.logical .and acc b) = true := by
              simp [wfNode, hacc, hb]
            exact ihAndL _ r2 t r hacc2 hr2 h
        · injection h with h1
          injection h1 with h2 h3
          subst h2
          subst h3
          exact ⟨hacc, hwf⟩
    · -- unaryC
      intro toks t r hwf h
      cases toks with
      | nil =>
        simp only [parseStep] at h
        exact ihP [] t r hwf h
      | cons tk rest =>
        simp only [parseStep] at h
        split_ifs at h with htk
        · cases hp : parseStep f (.unaryC rest) with
          | error e => rw [hp] at h; exact Except.noConfusion h
          | ok xr =>
            obtain ⟨x, r2⟩ := xr
            rw [hp] at h
            obtain ⟨hx, hr2⟩ := ihU rest x r2 (tail tk rest hwf) hp
            have h' : Except.ok (FilterNode.unary x, r2)
                = (Except.ok (t, r) : Except FilterError (FilterNode × List Token)) := h
            injection h' with h1
            injection h1 with h2 h3
            subst h2
            subst h3
            exact ⟨by simpa [wfNode] using hx, hr2⟩
        · exact ihP (tk :: rest) t r hwf h
    · -- primC
      intro toks t r hwf h
      cases toks with
      | nil => simp [parseStep] at h
      | cons tk rest =>
        cases tk with
        | lparen =>
          simp only [parseStep] at h
          cases hp : parseStep f (.orC rest) with
          | error e => rw [hp] at h; exact Except.noConfusion h
          | ok xr =>
            obtain ⟨x, rr⟩ := xr
            rw [hp] at h
            obtain ⟨hx, hrr⟩ := ihOr rest x rr (tail _ rest hwf) hp
            cases rr with
            | nil => exact Except.noConfusion h
            | cons tk2 r2 =>
              cases tk2 <;> try exact Except.noConfusion h
              case rparen =>
                injection h with h1
                injection h1 with h2 h3
                subst h2
                subst h3
                exact ⟨hx, tail _ r2 hrr⟩
        | ident s =>
          simp only [parseStep] at h
          cases hfp : fieldPathOf s with
          | none => rw [hfp] at h; exact Except.noConfusion h
          | some p =>
            rw [hfp] at h
            cases rest with
            | nil => exact Except.noConfusion h
            | cons tk2 rest2 =>
              cases tk2 <;> try exact Except.noConfusion h
              case cmp op =>
                cases rest2 with
                | nil => exact Except.noConfusion h
                | cons ltok r2 =>
                  have hC : (match litOfToken ltok with
                      | some v => Except.ok (FilterNode.comparison p op v, r2)
                      | none => (Except.error FilterError.synErr
                          : Except FilterError (FilterNode × List Token)))
                      = Except.ok (t, r) := h
                  cases hlt : litOfToken ltok with
                  | none => rw [hlt] at hC; exact Except.noConfusion hC
                  | some v =>
                    rw [hlt] at hC
                    injection hC with h1
                    injection h1 with h2 h3
                    subst h2
                    subst h3
                    have hsid : tokWF (.ident s) = true := hwf _ (List.mem_cons_self _ _)
                    have hlid : tokWF ltok = true := hwf _ (by simp)
                    refine ⟨?_, fun tok hm => hwf tok (by simp [hm])⟩
                    simp [wfNode, fieldPathOf_wf s hsid p hfp,
                      litOfToken_wf ltok v hlid hlt]
        | func fn =>
          simp only [parseStep] at h
          cases rest with
          | nil => exact Except.noConfusion h
          | cons tk2 rest2 =>
            cases tk2 <;> try exact Except.noConfusion h
            case lparen =>
              cases rest2 with
              | nil => exact Except.noConfusion h
              | cons tk3 rest3 =>
                cases tk3 <;> try exact Except.noConfusion h
                case ident s =>
                  cases rest3 with
                  | nil => exact Except.noConfusion h
                  | cons tk4 rest4 =>
                    cases tk4 <;> try exact Except.noConfusion h
                    case comma =>
                      cases rest4 with
                      | nil => exact Except.noConfusion h
                      | cons ltok rest5 =>
                        cases rest5 with
                        | nil => exact Except.noConfusion h
                        | cons tk6 r2 =>
                          cases tk6 <;> try exact Except.noConfusion h
                          case rparen =>
                            have hC : (match fieldPathOf s, litOfToken ltok with
                                | some p, some v =>
                                  Except.ok (FilterNode.functionCall fn p v, r2)
                                | _, _ => (Except.error FilterError.synErr
                                    : Except FilterError (FilterNode × List Token)))
                                = Except.ok (t, r) := h
                            cases hfp : fieldPathOf s with
                            | none =>
                              rw [hfp] at hC
                              cases hlt : litOfToken ltok with
                              | none => rw [hlt] at hC; exact Except.noConfusion hC
                              | some v => rw [hlt] at hC; exact Except.noConfusion hC
                            | some p =>
                              rw [hfp] at hC
                              cases hlt : litOfToken ltok with
                              | none => rw [hlt] at hC; exact Except.noConfusion hC
                              | some v =>
                                rw [hlt] at hC
                                injection hC with h1
                                injection h1 with h2 h3
                                subst h2
                                subst h3
                                have hsid : tokWF (.ident s) = true := hwf _ (by simp)
                                have hlid : tokWF ltok = true := hwf _ (by simp)
                                refine ⟨?_, fun tok hm => hwf tok (by simp [hm])⟩
                                simp [wfNode, fieldPathOf_wf s hsid p hfp,
                                  litOfToken_wf ltok v hlid hlt]
        | strLit s => simp [parseStep] at h
        | numLit s => simp [parseStep] at h
        | boolLit b => simp [parseStep] at h
        | nullLit => simp [parseStep] at h
        | cmp op => simp [parseStep] at h
        | andK => simp [parseStep] at h
        | orK => simp [parseStep] at h
        | notK => simp [parseStep] at h
        | rparen => simp [parseStep] at h
        | comma => simp [parseStep] at h



/-- Every tree returned by `filterParse` is well-formed. -/
theorem filterParse_wf (s : String) (t : FilterNode)
    (h : filterParse s = .ok t) : wfNode t = true := by
  rw [filterParse] at h
  cases htk : tokenizeChars s.data with
  | error e => rw [htk] at h; exact Except.noConfusion h
  | ok ts =>
    rw [htk] at h
    have hh : parseTokens ts = .ok t := h
    have hts : ∀ tok ∈ ts, tokWF tok = true :=
      tokFuel_wf (s.data.length + 1) s.data (by omega) (s.data.length + 1) ts htk
    rw [parseTokens.eq_def] at hh
    cases hp : parseStep (parseFuel ts) (.orC ts) with
    | error e => rw [hp] at hh; exact Except.noConfusion hh
    | ok tr =>
      obtain ⟨t2, r⟩ := tr
      rw [hp] at hh
      cases r with
      | nil =>
        have h2 : t2 = t := by
          injection hh with h'
        subst h2
        exact (parseStep_wf (parseFuel ts)).1 ts t2 [] hts hp |>.1
      | cons tk r2 => exact Except.noConfusion hh



/-- Leading whitespace is skipped by the tokenizer. -/
theorem tokenize_space (l : List Char) : tokenizeChars (' ' :: l) = tokenizeChars l := rfl

/-- The tokenizer consumes a maximal identifier run (not digit-headed,
followed by a space or the end) into one classified token. -/
theorem tokenize_identRun (c0 : Char) (k' : List Char)
    (hall : ∀ c ∈ c0 :: k', isIdentChar c = true) (hd : c0.isDigit = false)
    (cs : List Char) (hb : cs = [] ∨ ∃ cs', cs = ' ' :: cs') :
    tokenizeChars ((c0 :: k') ++ cs)
      = consTok (keywordToken (c0 :: k')) (tokenizeChars cs) := by
  have hc0 : isIdentChar c0 = true := hall c0 (by simp)
  have h1 : ¬(c0.isWhitespace = true) := by rw [identChar_not_ws c0 hc0]; simp
  have h2 : ¬(c0 = quoteChar) := char_ne_of isIdentChar c0 quoteChar hc0 (by decide)
  have h3 : ¬(c0 = '(') := char_ne_of isIdentChar c0 '(' hc0 (by decide)
  have h4 : ¬(c0 = ')') := char_ne_of isIdentChar c0 ')' hc0 (by decide)
  have h5 : ¬(c0 = ',') := char_ne_of isIdentChar c0 ',' hc0 (by decide)
  have h6 : ¬(c0.isDigit = true) := by rw [hd]; simp
  have h7 : ¬(c0 = '-') := char_ne_of isIdentChar c0 '-' hc0 (by decide)
  have hti : takeIdent ((c0 :: k') ++ cs) = (c0 :: k', cs) := by
    refine takeIdent_exact (c0 :: k') cs hall ?_
    intro c l he
    rcases hb with rfl | ⟨cs', rfl⟩
    · exact absurd he (by simp)
    · injection he with he1 _
      rw [← he1]
      decide
  rw [tokenizeChars, List.cons_append, tokFuel, if_neg h1, if_neg h2, if_neg h3,
    if_neg h4, if_neg h5, if_neg h6, if_neg h7, if_pos hc0]
  rw [← List.cons_append, hti]
  show consTok (keywordToken (c0 :: k')) (tokFuel (c0 :: k' ++ cs).length cs)
    = consTok (keywordToken (c0 :: k')) (tokenizeChars cs)
  rw [tokFuel_irrel (k' ++ cs).length cs (by simp) (c0 :: k' ++ cs).length
    (cs.length + 1) (by simp; omega) (by omega)]
  rfl


/-- Single-character punctuation tokens: open parenthesis. -/
theorem tokenize_lparen (cs : List Char) :
    tokenizeChars (['('] ++ cs) = consTok .lparen (tokenizeChars cs) := rfl

/-- Single-character punctuation tokens: close parenthesis. -/
theorem tokenize_rparen (cs : List Char) :
    tokenizeChars ([')'] ++ cs) = consTok .rparen (tokenizeChars cs) := rfl

/-- Single-character punctuation tokens: comma. -/
theorem tokenize_comma (cs : List Char) :
    tokenizeChars ([','] ++ cs) = consTok .comma (tokenizeChars cs) := rfl

/-- The tokenizer consumes an escaped string literal (followed by a space
or the end) into one string token. -/
theorem tokenize_str (body cs : List Char) (hb : cs = [] ∨ ∃ cs', cs = ' ' :: cs') :
    tokenizeChars ((quoteChar :: (escQuotes body ++ [quoteChar])) ++ cs)
      = consTok (.strLit ⟨body⟩) (tokenizeChars cs) := by
  have hbq : cs.head? ≠ some quoteChar := by
    rcases hb with rfl | ⟨cs', rfl⟩ <;> simp <;> decide
  have harr : (quoteChar :: (escQuotes body ++ [quoteChar])) ++ cs
      = quoteChar :: (escQuotes body ++ quoteChar :: cs) := by simp
  rw [harr, tokenizeChars, tokFuel, if_neg (by decide : ¬(quoteChar.isWhitespace = true)),
    if_pos rfl, lexString_esc body [] cs hbq]
  show consTok (.strLit ⟨[] ++ body⟩)
      (tokFuel (quoteChar :: (escQuotes body ++ quoteChar :: cs)).length cs) = _
  have hlen : cs.length < (quoteChar :: (escQuotes body ++ quoteChar :: cs)).length := by
    simp only [List.length_cons, List.length_append]
    omega
  rw [tokFuel_irrel (quoteChar :: (escQuotes body ++ quoteChar :: cs)).length cs (by omega)
    (quoteChar :: (escQuotes body ++ quoteChar :: cs)).length (cs.length + 1) hlen
    (by omega)]
  rfl

/-- Decomposition of a well-formed numeric lexeme into sign, integer
digits, and optional fraction. -/
theorem numWF_full_shape (l : List Char) (h : numWF l = true) :
    ∃ (sg : Bool) (ds rest : List Char),
      l = (if sg then ['-'] else []) ++ ds ++ rest ∧ ds ≠ [] ∧
      (∀ c ∈ ds, c.isDigit = true) ∧
      (rest = [] ∨ ∃ fs, rest = '.' :: fs ∧ fs ≠ [] ∧ ∀ c ∈ fs, c.isDigit = true) := by
  have core : ∀ l2 : List Char, numCore l2 = true →
      ∃ ds rest : List Char, l2 = ds ++ rest ∧ ds ≠ [] ∧
        (∀ c ∈ ds, c.isDigit = true) ∧
        (rest = [] ∨ ∃ fs, rest = '.' :: fs ∧ fs ≠ [] ∧ ∀ c ∈ fs, c.isDigit = true) := by
    intro l2 h2
    have happ := takeDigits_append_eq l2
    have hdig := takeDigits_digits l2
    simp only [numCore, Bool.and_eq_true, decide_eq_true_eq] at h2
    obtain ⟨h21, h22⟩ := h2
    cases hr : (takeDigits l2).2 with
    | nil =>
      refine ⟨(takeDigits l2).1, [], ?_, h21, hdig, Or.inl rfl⟩
      rw [hr] at happ
      simp at happ
      simp [happ]
    | cons c r2 =>
      rw [hr] at h22
      have h22b : (if c = '.' then
          (decide ((takeDigits r2).1 ≠ []) && decide ((takeDigits r2).2 = []))
          else false) = true := h22
      split_ifs at h22b with hc
      · subst hc
        have h22' : ((takeDigits r2).1 ≠ [] ∧ (takeDigits r2).2 = []) := by
          simpa using h22b
        have hr2 : r2 = (takeDigits r2).1 := by
          have := takeDigits_append_eq r2
          rw [h22'.2, List.append_nil] at this
          exact this.symm
        refine ⟨(takeDigits l2).1, '.' :: (takeDigits r2).1, ?_, h21, hdig,
          Or.inr ⟨(takeDigits r2).1, rfl, h22'.1, takeDigits_digits r2⟩⟩
        rw [← hr2, ← hr]
        exact happ.symm
  cases l with
  | nil => exact absurd h (by simp [numWF])
  | cons c r =>
    rw [numWF] at h
    split_ifs at h with hc
    · subst hc
      obtain ⟨ds, rest, he, h1, h2, h3⟩ := core r h
      exact ⟨true, ds, rest, by simp [he], h1, h2, h3⟩
    · obtain ⟨ds, rest, he, h1, h2, h3⟩ := core (c :: r) h
      exact ⟨false, ds, rest, by simp [he], h1, h2, h3⟩


/-- `lexNumber` on well-shaped digits (and optional fraction) followed by
a space or the end reconstructs exactly the numeric lexeme. -/
theorem lexNumber_core (sgb : Bool) (d0 : Char) (ds' rest cs : List Char)
    (hdig : ∀ c ∈ d0 :: ds', c.isDigit = true)
    (hrest : rest = [] ∨ ∃ fs, rest = '.' :: fs ∧ fs ≠ [] ∧ ∀ c ∈ fs, c.isDigit = true)
    (hb : cs = [] ∨ ∃ cs', cs = ' ' :: cs') :
    lexNumber sgb ((d0 :: ds') ++ (rest ++ cs))
      = .ok (⟨(if sgb then ['-'] else []) ++ ((d0 :: ds') ++ rest)⟩, cs) := by
  have hcstop : ∀ c l, cs = c :: l → c.isDigit = false := by
    intro c l he
    rcases hb with rfl | ⟨cs', rfl⟩
    · exact absurd he (by simp)
    · injection he with he1 _
      rw [← he1]
      decide
  have hstop : ∀ c l, rest ++ cs = c :: l → c.isDigit = false := by
    intro c l he
    rcases hrest with rfl | ⟨fs, rfl, _, _⟩
    · rw [List.nil_append] at he
      exact hcstop c l he
    · rw [List.cons_append] at he
      injection he with he1 _
      rw [← he1]
      decide
  have htd : takeDigits ((d0 :: ds') ++ (rest ++ cs)) = (d0 :: ds', rest ++ cs) :=
    takeDigits_exact _ _ hdig hstop
  rcases hrest with rfl | ⟨fs, rfl, hfs, hfdig⟩
  · rcases hb with rfl | ⟨cs', rfl⟩
    · rw [lexNumber_eq_plain_nil sgb _ (by rw [htd]; try simp) (by rw [htd]; try simp)]
      rw [htd]
      simp
    · rw [lexNumber_eq_plain_cons sgb _ ' ' cs' (by rw [htd]; try simp)
        (by rw [htd]; try simp) (by decide)]
      rw [htd]
      simp
  · have htf : takeDigits (fs ++ cs) = (fs, cs) :=
      takeDigits_exact fs cs hfdig hcstop
    rw [lexNumber_eq_frac sgb _ (fs ++ cs) (by rw [htd]; try simp)
      (by rw [htd]; try simp) (by rw [htf]; simpa using hfs)]
    rw [htd]
    simp [htf]

/-- The tokenizer consumes a well-formed numeric lexeme (followed by a
space or the end) into one number token. -/
theorem tokenize_num (s : String) (hwf : numWF s.data = true) (cs : List Char)
    (hb : cs = [] ∨ ∃ cs', cs = ' ' :: cs') :
    tokenizeChars (s.data ++ cs) = consTok (.numLit s) (tokenizeChars cs) := by
  obtain ⟨sg, ds, rest, hshape, hne, hdig, hrest⟩ := numWF_full_shape s.data hwf
  obtain ⟨d0, ds', rfl⟩ : ∃ d0 ds', ds = d0 :: ds' := by
    cases ds with
    | nil => exact absurd rfl hne
    | cons a b => exact ⟨a, b, rfl⟩
  have hd0 : d0.isDigit = true := hdig d0 (by simp)
  have hlex := lexNumber_core sg d0 ds' rest cs hdig hrest hb
  cases sg with
  | false =>
    have hs : s.data = (d0 :: ds') ++ rest := by simpa using hshape
    have harr : s.data ++ cs = d0 :: (ds' ++ (rest ++ cs)) := by
      rw [hs]
      simp
    have h1 : ¬(d0.isWhitespace = true) := by rw [digit_not_ws d0 hd0]; simp
    have h2 : ¬(d0 = quoteChar) := char_ne_of Char.isDigit d0 quoteChar hd0 (by decide)
    have h3 : ¬(d0 = '(') := char_ne_of Char.isDigit d0 '(' hd0 (by decide)
    have h4 : ¬(d0 = ')') := char_ne_of Char.isDigit d0 ')' hd0 (by decide)
    have h5 : ¬(d0 = ',') := char_ne_of Char.isDigit d0 ',' hd0 (by decide)
    rw [harr, tokenizeChars, tokFuel, if_neg h1, if_neg h2, if_neg h3, if_neg h4,
      if_neg h5, if_pos hd0]
    rw [show d0 :: (ds' ++ (rest ++ cs)) = (d0 :: ds') ++ (rest ++ cs) from rfl, hlex]
    show consTok (.numLit ⟨[] ++ ((d0 :: ds') ++ rest)⟩)
        (tokFuel (d0 :: (ds' ++ (rest ++ cs))).length cs) = _
    have he : (⟨[] ++ ((d0 :: ds') ++ rest)⟩ : String) = s := by
      rw [List.nil_append, ← hs]
    rw [he, tokFuel_irrel (ds' ++ (rest ++ cs)).length cs
      (by simp only [List.length_append]; omega) (d0 :: (ds' ++ (rest ++ cs))).length
      (cs.length + 1) (by simp only [List.length_cons, List.length_append]; omega)
      (by omega)]
    rfl
  | true =>
    have hs : s.data = '-' :: ((d0 :: ds') ++ rest) := by simpa using hshape
    have harr : s.data ++ cs = '-' :: ((d0 :: ds') ++ (rest ++ cs)) := by
      rw [hs]
      simp
    rw [harr, tokenizeChars, tokFuel,
      if_neg (by decide : ¬(Char.isWhitespace '-' = true)),
      if_neg (by decide : ¬('-' = quoteChar)), if_neg (by decide : ¬('-' = '(')),
      if_neg (by decide : ¬('-' = ')')), if_neg (by decide : ¬('-' = ',')),
      if_neg (by decide : ¬(Char.isDigit '-' = true)), if_pos rfl]
    rw [hlex]
    show consTok (.numLit ⟨['-'] ++ ((d0 :: ds') ++ rest)⟩)
        (tokFuel ('-' :: ((d0 :: ds') ++ (rest ++ cs))).length cs) = _
    have he : (⟨['-'] ++ ((d0 :: ds') ++ rest)⟩ : String) = s := by
      show (⟨'-' :: ((d0 :: ds') ++ rest)⟩ : String) = s
      rw [← hs]
    rw [he, tokFuel_irrel ((d0 :: ds') ++ (rest ++ cs)).length cs
      (by simp only [List.length_cons, List.length_append]; omega)
      ('-' :: ((d0 :: ds') ++ (rest ++ cs))).length
      (cs.length + 1) (by simp only [List.length_cons, List.length_append]; omega)
      (by omega)]
    rfl


/-- The tokenizer consumes any well-formed token lexeme (followed by a
space or the end) into that token. -/
theorem tokenize_token (tok : Token) (cs : List Char) (hwf : tokWF tok = true)
    (hb : cs = [] ∨ ∃ cs', cs = ' ' :: cs') :
    tokenizeChars (tokenLexeme tok ++ cs) = consTok tok (tokenizeChars cs) := by
  cases tok with
  | ident s =>
    rw [tokWF] at hwf
    cases hsd : s.data with
    | nil => rw [hsd] at hwf; exact absurd hwf (by simp [identWF])
    | cons c0 k' =>
      rw [hsd] at hwf
      rw [identWF] at hwf
      simp only [Bool.and_eq_true, Bool.not_eq_true', List.all_eq_true] at hwf
      obtain ⟨⟨hd, hall⟩, hkw⟩ := hwf
      have hnm : (⟨(c0 :: k').map Char.toLower⟩ : String) ∉ kwStrings := by
        intro hm
        have helem : List.elem (⟨(c0 :: k').map Char.toLower⟩ : String) kwStrings = true := by
          rw [List.elem_eq_mem]
          exact decide_eq_true hm
        have hkw2 : List.elem (⟨(c0 :: k').map Char.toLower⟩ : String) kwStrings = false :=
          hkw
        rw [helem] at hkw2
        exact Bool.noConfusion hkw2
      rw [tokenLexeme, hsd,
        tokenize_identRun c0 k' hall hd cs hb, keywordToken_eq_ident _ hnm, ← hsd]
  | strLit s => exact tokenize_str s.data cs hb
  | numLit s => exact tokenize_num s hwf cs hb
  | boolLit b =>
    cases b with
    | true => exact tokenize_identRun 't' ['r', 'u', 'e'] (by decide) (by decide) cs hb
    | false =>
      exact tokenize_identRun 'f' ['a', 'l', 's', 'e'] (by decide) (by decide) cs hb
  | nullLit => exact tokenize_identRun 'n' ['u', 'l', 'l'] (by decide) (by decide) cs hb
  | cmp op =>
    cases op with
    | eq => exact tokenize_identRun 'e' ['q'] (by decide) (by decide) cs hb
    | ne => exact tokenize_identRun 'n' ['e'] (by decide) (by decide) cs hb
    | gt => exact tokenize_identRun 'g' ['t'] (by decide) (by decide) cs hb
    | ge => exact tokenize_identRun 'g' ['e'] (by decide) (by decide) cs hb
    | lt => exact tokenize_identRun 'l' ['t'] (by decide) (by decide) cs hb
    | le => exact tokenize_identRun 'l' ['e'] (by decide) (by decide) cs hb
  | andK => exact tokenize_identRun 'a' ['n', 'd'] (by decide) (by decide) cs hb
  | orK => exact tokenize_identRun 'o' ['r'] (by decide) (by decide) cs hb
  | notK => exact tokenize_identRun 'n' ['o', 't'] (by decide) (by decide) cs hb
  | func f =>
    cases f with
    | contains =>
      exact tokenize_identRun 'c' ['o', 'n', 't', 'a', 'i', 'n', 's']
        (by decide) (by decide) cs hb
    | startswith =>
      exact tokenize_identRun 's' ['t', 'a', 'r', 't', 's', 'w', 'i', 't', 'h']
        (by decide) (by decide) cs hb
    | endswith =>
      exact tokenize_identRun 'e' ['n', 'd', 's', 'w', 'i', 't', 'h']
        (by decide) (by decide) cs hb
  | lparen => exact tokenize_lparen cs
  | rparen => exact tokenize_rparen cs
  | comma => exact tokenize_comma cs

/-- The tokenizer inverts the lexeme rendering of any list of well-formed
tokens. -/
theorem tokenize_lexemes :
    ∀ ts : List Token, (∀ tok ∈ ts, tokWF tok = true) →
      tokenizeChars (joinWith ' ' (ts.map tokenLexeme)) = .ok ts := by
  intro ts
  induction ts with
  | nil => intro _; rfl
  | cons x ts' ih =>
    intro hwf
    cases ts' with
    | nil =>
      show tokenizeChars (joinWith ' ' [tokenLexeme x]) = _
      rw [joinWith, ← List.append_nil (tokenLexeme x),
        tokenize_token x [] (hwf x (by simp)) (Or.inl rfl)]
      rfl
    | cons y ts'' =>
      show tokenizeChars (joinWith ' '
        (tokenLexeme x :: tokenLexeme y :: ts''.map tokenLexeme)) = _
      rw [joinWith,
        tokenize_token x _ (hwf x (by simp)) (Or.inr ⟨_, rfl⟩), tokenize_space,
        ← List.map_cons, ih fun tok hm => hwf tok (List.mem_cons_of_mem _ hm)]
      rfl



/-- `ppToks` on a logical node, stated with `ppAtomToks`. -/
theorem ppToks_logical (op : LogOp) (l r : FilterNode) :
    ppToks (.logical op l r)
      = ppAtomToks l ++ (match op with | .and => Token.andK | .or => Token.orK)
        :: ppAtomToks r := rfl

/-- `ppToks` on a negation node, stated with `ppAtomToks`. -/
theorem ppToks_unary (x : FilterNode) :
    ppToks (.unary x) = .notK :: ppAtomToks x := rfl

/-- Tokens of a parenthesized child are the child tokens plus
parentheses. -/
theorem ppAtom_sub (x : FilterNode)
    (hx : ∀ tok ∈ ppToks x, tokWF tok = true) :
    ∀ tok ∈ ppAtomToks x, tokWF tok = true := by
  intro tok hm
  rw [ppAtomToks] at hm
  split_ifs at hm with h
  · rcases List.mem_cons.mp hm with rfl | hm2
    · rfl
    · rcases List.mem_append.mp hm2 with hm3 | hm3
      · exact hx tok hm3
      · rcases List.mem_singleton.mp hm3 with rfl
        rfl
  · exact hx tok hm

/-- Every token of the in-order reconstruction of a well-formed tree is
well-formed. -/
theorem ppToks_wf (t : FilterNode) (hwf : wfNode t = true) :
    ∀ tok ∈ ppToks t, tokWF tok = true := by
  induction t with
  | comparison p op v =>
    rw [wfNode] at hwf
    simp only [Bool.and_eq_true] at hwf
    intro tok hm
    rw [ppToks] at hm
    rcases List.mem_cons.mp hm with rfl | hm2
    · show identWF (joinPath p).data = true
      have h2 := hwf.1
      simp only [pathWF, Bool.and_eq_true] at h2
      exact h2.2
    · rcases List.mem_cons.mp hm2 with rfl | hm3
      · rfl
      · rcases List.mem_cons.mp hm3 with rfl | hm4
        · cases v with
          | num s => exact hwf.2
          | str s => rfl
          | bool b => rfl
          | null => rfl
        · exact absurd hm4 (List.not_mem_nil tok)
  | logical op l r ihl ihr =>
    rw [wfNode] at hwf
    simp only [Bool.and_eq_true] at hwf
    intro tok hm
    rw [ppToks_logical] at hm
    rcases List.mem_append.mp hm with hm2 | hm2
    · exact ppAtom_sub l (ihl hwf.1) tok hm2
    · rcases List.mem_cons.mp hm2 with rfl | hm3
      · cases op <;> rfl
      · exact ppAtom_sub r (ihr hwf.2) tok hm3
  | unary x ihx =>
    rw [wfNode] at hwf
    intro tok hm
    rw [ppToks_unary] at hm
    rcases List.mem_cons.mp hm with rfl | hm2
    · rfl
    · exact ppAtom_sub x (ihx hwf) tok hm2
  | functionCall fn p v =>
    rw [wfNode] at hwf
    simp only [Bool.and_eq_true] at hwf
    intro tok hm
    rw [ppToks] at hm
    simp only [List.mem_cons, List.not_mem_nil, or_false] at hm
    rcases hm with rfl | rfl | rfl | rfl | rfl | rfl
    · rfl
    · rfl
    · show identWF (joinPath p).data = true
      have h2 := hwf.1
      simp only [pathWF, Bool.and_eq_true] at h2
      exact h2.2
    · rfl
    · cases v with
      | num s => exact hwf.2
      | str s => rfl
      | bool b => rfl
      | null => rfl
    · rfl



/-- The literal token of a literal denotes it back. -/
theorem litOfToken_litToken (v : FLit) : litOfToken (litToken v) = some v := by
  cases v <;> rfl

/-- A printed atom starts with an opening parenthesis, an identifier or a
function name — never with `not`. -/
theorem ppAtom_head (t : FilterNode) :
    ∃ c0 cl, ppAtomToks t = c0 :: cl ∧ c0 ≠ Token.notK := by
  rw [ppAtomToks]
  cases t with
  | comparison p op v => exact ⟨.ident (joinPath p), _, rfl, by simp⟩
  | logical op l r => exact ⟨.lparen, _, rfl, by simp⟩
  | unary x => exact ⟨.lparen, _, rfl, by simp⟩
  | functionCall fn p v => exact ⟨.func fn, _, rfl, by simp⟩

/-- The `not`-level parser accepts a primary chunk. -/
theorem step_unary_of_prim (chunk : List Token) (t : FilterNode) (B : Nat)
    (hne : ∃ c0 cl, chunk = c0 :: cl ∧ c0 ≠ Token.notK)
    (hp : ∀ f rest, B ≤ f → parseStep f (.primC (chunk ++ rest)) = .ok (t, rest)) :
    ∀ f rest, B + 1 ≤ f → parseStep f (.unaryC (chunk ++ rest)) = .ok (t, rest) := by
  intro f rest hf
  obtain ⟨c0, cl, rfl, hc0⟩ := hne
  cases f with
  | zero => omega
  | succ f' =>
    rw [List.cons_append]
    simp only [parseStep]
    rw [if_neg hc0, ← List.cons_append]
    exact hp f' rest (by omega)

/-- The `and`-level parser accepts a `not`-level chunk when the rest does
not continue the conjunction. -/
theorem step_and_of_unary (chunk : List Token) (t : FilterNode) (B : Nat)
    (hu : ∀ f rest, B ≤ f → parseStep f (.unaryC (chunk ++ rest)) = .ok (t, rest)) :
    ∀ f rest, (∀ tk l, rest = tk :: l → tk ≠ Token.andK) → B + 2 ≤ f →
      parseStep f (.andC (chunk ++ rest)) = .ok (t, rest) := by
  intro f rest hstop hf
  cases f with
  | zero => omega
  | succ f' =>
    simp only [parseStep]
    rw [hu f' rest (by omega)]
    show parseStep f' (.andLoopC t rest) = .ok (t, rest)
    cases f' with
    | zero => omega
    | succ f'' =>
      cases rest with
      | nil => simp [parseStep]
      | cons tk l =>
        simp only [parseStep]
        rw [if_neg (hstop tk l rfl)]

/-- The `or`-level parser accepts an `and`-level chunk when the rest does
not continue either connective chain. -/
theorem step_or_of_and (chunk : List Token) (t : FilterNode) (B : Nat)
    (ha : ∀ f rest, (∀ tk l, rest = tk :: l → tk ≠ Token.andK) → B ≤ f →
      parseStep f (.andC (chunk ++ rest)) = .ok (t, rest)) :
    ∀ f rest, (∀ tk l, rest = tk :: l → tk ≠ Token.andK ∧ tk ≠ Token.orK) → B + 2 ≤ f →
      parseStep f (.orC (chunk ++ rest)) = .ok (t, rest) := by
  intro f rest hstop hf
  cases f with
  | zero => omega
  | succ f' =>
    simp only [parseStep]
    rw [ha f' rest (fun tk l he => (hstop tk l he).1) (by omega)]
    show parseStep f' (.orLoopC t rest) = .ok (t, rest)
    cases f' with
    | zero => omega
    | succ f'' =>
      cases rest with
      | nil => simp [parseStep]
      | cons tk l =>
        simp only [parseStep]
        rw [if_neg (hstop tk l rfl).2]

/-- The primary parser accepts a parenthesized expression chunk. -/
theorem step_paren_prim (t : FilterNode) (B : Nat)
    (hor : ∀ f rest, (∀ tk l, rest = tk :: l → tk ≠ Token.andK ∧ tk ≠ Token.orK) →
      B ≤ f → parseStep f (.orC (ppToks t ++ rest)) = .ok (t, rest)) :
    ∀ f rest, B + 1 ≤ f →
      parseStep f (.primC ((.lparen :: (ppToks t ++ [.rparen])) ++ rest)) = .ok (t, rest) := by
  intro f rest hf
  cases f with
  | zero => omega
  | succ f' =>
    have harr : (Token.lparen :: (ppToks t ++ [Token.rparen])) ++ rest
        = Token.lparen :: (ppToks t ++ (Token.rparen :: rest)) := by simp
    rw [harr]
    simp only [parseStep]
    rw [hor f' (Token.rparen :: rest) (by
      intro tk l he
      injection he with he1 _
      rw [← he1]
      exact ⟨by simp, by simp⟩) (by omega)]



/-- The in-order token reconstruction of a well-formed tree reparses to
the same tree, both as a primary chunk (in its parenthesized-if-needed
atom form) and as a full `or`-level expression, with any rest of tokens
left untouched provided it does not continue a connective chain. -/
theorem pp_parse : ∀ t : FilterNode, wfNode t = true →
    (∀ f rest, 4 * (ppAtomToks t).length ≤ f + 3 →
      parseStep f (.primC (ppAtomToks t ++ rest)) = .ok (t, rest)) ∧
    (∀ f rest, (∀ tk l, rest = tk :: l → tk ≠ Token.andK ∧ tk ≠ Token.orK) →
      4 * (ppToks t).length + 4 ≤ f →
      parseStep f (.orC (ppToks t ++ rest)) = .ok (t, rest)) := by
  intro t
  induction t with
  | comparison p op v =>
    intro hwf
    rw [wfNode] at hwf
    simp only [Bool.and_eq_true] at hwf
    have hLA : (ppAtomToks (.comparison p op v)).length = 3 := rfl
    have hLT : (ppToks (.comparison p op v)).length = 3 := rfl
    have hP : ∀ f rest, 4 * (ppAtomToks (.comparison p op v)).length ≤ f + 3 →
        parseStep f (.primC (ppAtomToks (.comparison p op v) ++ rest))
          = .ok (.comparison p op v, rest) := by
      intro f rest hf
      cases f with
      | zero => omega
      | succ f1 =>
        show parseStep (f1 + 1)
          (.primC ((Token.ident (joinPath p) :: [Token.cmp op, litToken v]) ++ rest))
          = .ok (.comparison p op v, rest)
        simp only [parseStep, List.cons_append, List.nil_append,
          fieldPathOf_joinPath p hwf.1, litOfToken_litToken]
    have hU := step_unary_of_prim (ppAtomToks (.comparison p op v)) (.comparison p op v)
      (4 * (ppAtomToks (.comparison p op v)).length - 3) (ppAtom_head _)
      (fun g r hg => hP g r (by omega))
    have hA := step_and_of_unary _ _ _ hU
    have hor := step_or_of_and _ _ _ hA
    exact ⟨hP, fun f rest hstop hf => hor f rest hstop (by omega)⟩
  | functionCall fn p v =>
    intro hwf
    rw [wfNode] at hwf
    simp only [Bool.and_eq_true] at hwf
    have hLA : (ppAtomToks (.functionCall fn p v)).length = 6 := rfl
    have hLT : (ppToks (.functionCall fn p v)).length = 6 := rfl
    have hP : ∀ f rest, 4 * (ppAtomToks (.functionCall fn p v)).length ≤ f + 3 →
        parseStep f (.primC (ppAtomToks (.functionCall fn p v) ++ rest))
          = .ok (.functionCall fn p v, rest) := by
      intro f rest hf
      cases f with
      | zero => omega
      | succ f1 =>
        show parseStep (f1 + 1)
          (.primC ((Token.func fn :: [Token.lparen, Token.ident (joinPath p),
            Token.comma, litToken v, Token.rparen]) ++ rest))
          = .ok (.functionCall fn p v, rest)
        simp only [parseStep, List.cons_append, List.nil_append,
          fieldPathOf_joinPath p hwf.1, litOfToken_litToken]
    have hU := step_unary_of_prim (ppAtomToks (.functionCall fn p v)) (.functionCall fn p v)
      (4 * (ppAtomToks (.functionCall fn p v)).length - 3) (ppAtom_head _)
      (fun g r hg => hP g r (by omega))
    have hA := step_and_of_unary _ _ _ hU
    have hor := step_or_of_and _ _ _ hA
    exact ⟨hP, fun f rest hstop hf => hor f rest hstop (by omega)⟩
  | unary x ih =>
    intro hwf
    have hx : wfNode x = true := hwf
    obtain ⟨hPx, -⟩ := ih hx
    have hlen1 : (ppToks (.unary x)).length = (ppAtomToks x).length + 1 := by
      rw [ppToks_unary]; simp
    have hU : ∀ f rest, 4 * (ppAtomToks x).length + 2 ≤ f →
        parseStep f (.unaryC (ppToks (.unary x) ++ rest)) = .ok (.unary x, rest) := by
      intro f rest hf
      cases f with
      | zero => omega
      | succ f1 =>
        rw [ppToks_unary, List.cons_append]
        simp only [parseStep]
        rw [if_pos trivial,
          step_unary_of_prim (ppAtomToks x) x (4 * (ppAtomToks x).length - 3)
            (ppAtom_head x) (fun g r hg => hPx g r (by omega)) f1 rest (by omega)]
    have hA := step_and_of_unary _ _ _ hU
    have hor := step_or_of_and _ _ _ hA
    refine ⟨?_, fun f rest hstop hf => hor f rest hstop (by omega)⟩
    intro f rest hf
    have hat : ppAtomToks (.unary x)
        = Token.lparen :: (ppToks (.unary x) ++ [Token.rparen]) := rfl
    have hlen2 : (ppAtomToks (.unary x)).length = (ppToks (.unary x)).length + 2 := by
      rw [hat]; simp
    rw [hat]
    exact step_paren_prim (.unary x) _
      (fun g r hs hg => hor g r hs hg) f rest (by omega)
  | logical op l r ihl ihr =>
    intro hwf
    rw [wfNode] at hwf
    simp only [Bool.and_eq_true] at hwf
    obtain ⟨hPl, -⟩ := ihl hwf.1
    obtain ⟨hPr, -⟩ := ihr hwf.2
    have hUl := step_unary_of_prim (ppAtomToks l) l (4 * (ppAtomToks l).length - 3)
      (ppAtom_head l) (fun g s hg => hPl g s (by omega))
    have hUr := step_unary_of_prim (ppAtomToks r) r (4 * (ppAtomToks r).length - 3)
      (ppAtom_head r) (fun g s hg => hPr g s (by omega))
    have hAl := step_and_of_unary _ _ _ hUl
    have hAr := step_and_of_unary _ _ _ hUr
    have hlen : (ppToks (.logical op l r)).length
        = (ppAtomToks l).length + 1 + (ppAtomToks r).length := by
      rw [ppToks_logical]; simp; omega
    have hor : ∀ f rest,
        (∀ tk tl, rest = tk :: tl → tk ≠ Token.andK ∧ tk ≠ Token.orK) →
        4 * (ppToks (.logical op l r)).length + 4 ≤ f →
        parseStep f (.orC (ppToks (.logical op l r) ++ rest))
          = .ok (.logical op l r, rest) := by
      cases op with
      | or =>
        intro f rest hstop hf
        have harr : ppToks (.logical .or l r) ++ rest
            = ppAtomToks l ++ (Token.orK :: (ppAtomToks r ++ rest)) := by
          rw [ppToks_logical]; simp
        cases f with
        | zero => omega
        | succ f1 =>
          rw [harr]
          simp only [parseStep]
          rw [hAl f1 (Token.orK :: (ppAtomToks r ++ rest))
            (by intro tk tl he; injection he with h1 _; rw [← h1]; simp)
            (by omega)]
          show parseStep f1 (.orLoopC l (Token.orK :: (ppAtomToks r ++ rest)))
            = .ok (.logical .or l r, rest)
          cases f1 with
          | zero => omega
          | succ f2 =>
            simp only [parseStep]
            rw [if_pos trivial,
              hAr f2 rest (fun tk tl he => (hstop tk tl he).1) (by omega)]
            show parseStep f2 (.orLoopC (.logical .or l r) rest)
              = .ok (.logical .or l r, rest)
            cases f2 with
            | zero => omega
            | succ f3 =>
              cases rest with
              | nil => simp [parseStep]
              | cons tk tl =>
                simp only [parseStep]
                rw [if_neg (hstop tk tl rfl).2]
      | and =>
        intro f rest hstop hf
        have harr : ppToks (.logical .and l r) ++ rest
            = ppAtomToks l ++ (Token.andK :: (ppAtomToks r ++ rest)) := by
          rw [ppToks_logical]; simp
        cases f with
        | zero => omega
        | succ f1 =>
          rw [harr]
          simp only [parseStep]
          have hand : parseStep f1
              (.andC (ppAtomToks l ++ (Token.andK :: (ppAtomToks r ++ rest))))
              = .ok (.logical .and l r, rest) := by
            cases f1 with
            | zero => omega
            | succ f2 =>
              simp only [parseStep]
              rw [hUl f2 (Token.andK :: (ppAtomToks r ++ rest)) (by omega)]
              show parseStep f2 (.andLoopC l (Token.andK :: (ppAtomToks r ++ rest)))
                = .ok (.logical .and l r, rest)
              cases f2 with
              | zero => omega
              | succ f3 =>
                simp only [parseStep]
                rw [if_pos trivial, hUr f3 rest (by omega)]
                show parseStep f3 (.andLoopC (.logical .and l r) rest)
                  = .ok (.logical .and l r, rest)
                cases f3 with
                | zero => omega
                | succ f4 =>
                  cases rest with
                  | nil => simp [parseStep]
                  | cons tk tl =>
                    simp only [parseStep]
                    rw [if_neg (hstop tk tl rfl).1]
          rw [hand]
          show parseStep f1 (.orLoopC (.logical .and l r) rest)
            = .ok (.logical .and l r, rest)
          cases f1 with
          | zero => omega
          | succ f2 =>
            cases rest with
            | nil => simp [parseStep]
            | cons tk tl =>
              simp only [parseStep]
              rw [if_neg (hstop tk tl rfl).2]
    refine ⟨?_, hor⟩
    intro f rest hf
    have hat : ppAtomToks (.logical op l r)
        = Token.lparen :: (ppToks (.logical op l r) ++ [Token.rparen]) := rfl
    have hlen2 : (ppAtomToks (.logical op l r)).length
        = (ppToks (.logical op l r)).length + 2 := by
      rw [hat]; simp
    rw [hat]
    exact step_paren_prim (.logical op l r) _
      (fun g s hs hg => hor g s hs hg) f rest (by omega)

/-- Pretty-printing a well-formed tree and running the whole pipeline
(tokenizer, parser, trailing-token check) recovers exactly that tree. -/
theorem reparse (t : FilterNode) (hwf : wfNode t = true) :
    filterParse (pretty t) = .ok t := by
  obtain ⟨-, hor⟩ := pp_parse t hwf
  have htok : tokenizeChars (pretty t).data = .ok (ppToks t) := by
    show tokenizeChars (joinWith ' ' ((ppToks t).map tokenLexeme)) = .ok (ppToks t)
    exact tokenize_lexemes (ppToks t) (ppToks_wf t hwf)
  have hrun : parseStep (parseFuel (ppToks t)) (.orC (ppToks t)) = .ok (t, []) := by
    have h2 := hor (parseFuel (ppToks t)) [] (fun tk tl he => nomatch he)
      (by rw [parseFuel]; omega)
    rw [List.append_nil] at h2
    exact h2
  simp only [filterParse]
  rw [htok]
  show parseTokens (ppToks t) = .ok t
  simp only [parseTokens]
  rw [hrun]



/-- C7: for every filter string s that parses successfully to a tree t,
re-parsing the pretty-printed (in-order reconstructed) form of t yields
a tree structurally identical to t; in particular the pretty-printed
form parses to the same result as s, making the two semantically
equivalent modulo whitespace and keyword case. -/
theorem claim_reparse_pretty :
    ∀ (s : String) (t : FilterNode), filterParse s = .ok t →
      filterParse (pretty t) = .ok t ∧ filterParse (pretty t) = filterParse s := by
  intro s t h
  have hre := reparse t (filterParse_wf s t h)
  exact ⟨hre, by rw [hre, h]⟩

/-- C7 witness: the concrete comparison string round-trips through
pretty-printing. -/
theorem claim_reparse_pretty_witness :
    filterParse (pretty cmpA) = .ok cmpA
      ∧ filterParse (pretty cmpA) = filterParse "a eq 1" :=
  claim_reparse_pretty "a eq 1" cmpA (by rfl)


end ODataQuery
